import Mathlib

/-! Loop unrolling pass (`src/UnrollLoops.cpp`).

A shallow embedding of the `UnrollLoops` mutator and of `unroll_loops`.

* The IR (`Expr`, `Stmt`) follows the node kinds the pass touches.  Node types
  are declared in the IR headers; only the fields the pass reads or writes are
  kept, and the scalar type carried by every expression is dropped.
* The collaborators the pass calls (`simplify`, `substitute`, `remove_likelies`,
  `substitute_in_all_lets`, `find_constant_bound`, `is_pure`, `has_side_effect`,
  `expr_uses_vars`, `unique_name`) are taken as parameters, bundled in `Oracles`.
* `Stmt.undef` is the undefined (null) statement handle: `Stmt iters;` in the
  source, and the absent else-branch of `IfThenElse::make (c, t)`.
* Mutable members of the mutator (`lets`, the diagnostics channel, the
  fresh-name counter) are threaded explicitly.
-/

namespace Halide

/-! ## Data model -/

/-- Loop kinds; the pass only distinguishes `Unrolled` from the rest. -/
inductive ForType where
  | Serial
  | Parallel
  | Vectorized
  | Unrolled
  deriving DecidableEq, Repr

/-- Execution-target tag of a loop; copied, never inspected. -/
inductive DeviceAPI where
  | None
  | Host
  | Default_GPU
  deriving DecidableEq, Repr

/-- Expressions.  `IntImm` carries a 64-bit signed value. -/
inductive Expr where
  | IntImm (value : Int)
  | Variable (name : String)
  | Add (a b : Expr)
  | Mul (a b : Expr)
  | Min (a b : Expr)
  | LT (a b : Expr)
  | Let (name : String) (value body : Expr)
  | Select (condition true_value false_value : Expr)
  | Load (name : String) (index : Expr)
  | Call (name : String) (arg : Expr)
  deriving DecidableEq, Repr

/-- Statements.  `undef` is the undefined statement handle. -/
inductive Stmt where
  | undef
  | LetStmt (name : String) (value : Expr) (body : Stmt)
  | For (name : String) (min extent : Expr) (for_type : ForType)
      (device_api : DeviceAPI) (body : Stmt)
  | Store (name : String) (value index : Expr) (param : String)
      (predicate : Expr) (alignment : Int × Int)
  | Block (first rest : Stmt)
  | IfThenElse (condition : Expr) (then_case else_case : Stmt)
  | Evaluate (value : Expr)
  deriving DecidableEq, Repr

/-- The test `s.defined()` on a statement handle. -/
def Stmt.defined : Stmt → Bool
  | .undef => false
  | _ => true

/-- The cast `e.as<IntImm>()`: the literal value, or the null pointer. -/
def as_IntImm : Expr → Option Int
  | .IntImm v => some v
  | _ => none

/-- The intrinsic call built by `likely_if_innermost (e)`. -/
def likely_if_innermost (e : Expr) : Expr := .Call "likely_if_innermost" e

/-! ## Collaborators -/

/-- The analyses and rewriters the pass calls but does not own. -/
structure Oracles where
  /-- Expression overload of `simplify`. -/
  simplify : Expr → Expr
  /-- Statement overload of `simplify`. -/
  simplify_stmt : Stmt → Stmt
  /-- Call `substitute (name, replacement, stmt)`. -/
  substitute : String → Expr → Stmt → Stmt
  remove_likelies : Expr → Expr
  substitute_in_all_lets : Expr → Expr
  /-- Call `find_constant_bound (e, Direction::Upper, Scope<Interval>())`;
  `none` is the undefined expression. -/
  find_constant_bound : Expr → Option Expr
  is_pure : Expr → Bool
  has_side_effect : Expr → Bool
  /-- Call `expr_uses_vars (e, scope)`, the scope given as its stack of names. -/
  expr_uses_vars : Expr → List String → Bool
  /-- Call `unique_name (c)` when the global counter holds the given value. -/
  unique_name : Char → Nat → String

/-! ## Pass state -/

/-- Diagnostics recorded so far and the fresh-name counter. -/
structure PassState where
  warnings : List String
  counter : Nat
  deriving DecidableEq, Repr

/-- Record a `user_warning`. -/
def PassState.warn (st : PassState) (msg : String) : PassState :=
  { st with warnings := st.warnings ++ [msg] }

/-- The data of the fatal `user_assert (e)` diagnostic: the loop name and the
expression held by the local `extent` when the assertion fires. -/
structure UnrollError where
  name : String
  extent : Expr
  deriving DecidableEq, Repr

def permit_warning : String :=
  "HL_PERMIT_FAILED_UNROLL is allowing us to unroll a non-constant loop into a serial loop. Did you mean to do this?\n"

def extent_one_warning (name : String) : String :=
  "Warning: Unrolling a for loop of extent 1: " ++ name ++ "\n"

/-! ## Trip-count resolution (lines 39-65) -/

/-- The loop `for (it = lets.rbegin (); it != lets.rend (); it++)
extent = Let::make (it->first, it->second, extent)`. -/
def wrap_lets (lets : List (String × Expr)) (extent : Expr) : Expr :=
  lets.reverse.foldl (fun ext p => Expr.Let p.1 p.2 ext) extent

/-- Outcome of lines 39-65: the pointer `e`, the local `extent`, `use_guard`. -/
structure Resolved where
  e : Option Int
  extent : Expr
  use_guard : Bool
  deriving DecidableEq, Repr

/-- Lines 39-53: simplify, then inline the enclosing pure lets and retry. -/
def resolve_exact (O : Oracles) (lets : List (String × Expr)) (for_extent : Expr) :
    Option Int × Expr :=
  let extent := O.simplify for_extent
  match as_IntImm extent with
  | some v => (some v, extent)
  | none =>
    let extent1 := wrap_lets lets extent
    let extent2 := O.remove_likelies extent1
    let extent3 := O.substitute_in_all_lets extent2
    let extent4 := O.simplify extent3
    (as_IntImm extent4, extent4)

/-- Lines 39-65. -/
def resolve (O : Oracles) (lets : List (String × Expr)) (for_extent : Expr) : Resolved :=
  match resolve_exact O lets for_extent with
  | (some v, extent) => ⟨some v, extent, false⟩
  | (none, extent) =>
    match O.find_constant_bound extent with
    | some extent_upper => ⟨as_IntImm extent_upper, extent, true⟩
    | none => ⟨none, extent, false⟩

/-! ## Let peeling (lines 85-152) -/

/-- The local struct `ContainingLet`. -/
structure ContainingLet where
  name : String
  value : Expr
  varying : Bool
  from_store : Bool
  deriving DecidableEq, Repr

/-- The local vector `lets` and the scope `varying` (its stack of names,
most recent first). -/
structure PeelState where
  lets : List ContainingLet
  varying : List String
  deriving DecidableEq, Repr

/-- The lambda `peel_let`. -/
def peel_let (O : Oracles) (ps : PeelState) (name : String) (value : Expr)
    (from_store : Bool) : PeelState :=
  let v := O.expr_uses_vars value ps.varying || O.has_side_effect value
  { lets := ps.lets ++ [⟨name, value, v, from_store⟩]
    varying := if v then name :: ps.varying else ps.varying }

/-- Lines 105-109: strip the chain of `LetStmt`s in front of the body. -/
def peel_LetStmts (O : Oracles) : Stmt → PeelState → Stmt × PeelState
  | .LetStmt name value body, ps => peel_LetStmts O body (peel_let O ps name value false)
  | .undef, ps => (.undef, ps)
  | .For n m e t d b, ps => (.For n m e t d b, ps)
  | .Store n v i p pr a, ps => (.Store n v i p pr a, ps)
  | .Block f r, ps => (.Block f r, ps)
  | .IfThenElse c t e, ps => (.IfThenElse c t e, ps)
  | .Evaluate v, ps => (.Evaluate v, ps)

/-- Lines 120-124: strip the chain of `Let`s in front of the store value. -/
def peel_Lets (O : Oracles) : Expr → PeelState → Expr × PeelState
  | .Let name value body, ps => peel_Lets O body (peel_let O ps name value true)
  | .IntImm v, ps => (.IntImm v, ps)
  | .Variable n, ps => (.Variable n, ps)
  | .Add a b, ps => (.Add a b, ps)
  | .Mul a b, ps => (.Mul a b, ps)
  | .Min a b, ps => (.Min a b, ps)
  | .LT a b, ps => (.LT a b, ps)
  | .Select c t f, ps => (.Select c t f, ps)
  | .Load n i, ps => (.Load n i, ps)
  | .Call n a, ps => (.Call n a, ps)

/-- Lines 130-138, over the reversed vector: re-wrap the varying lets that came
from the store, stopping at the first let that did not. -/
def rewrap_store_lets : List ContainingLet → Expr → Expr
  | [], store_value => store_value
  | it :: rest, store_value =>
    if it.from_store then
      rewrap_store_lets rest
        (if it.varying then .Let it.name it.value store_value else store_value)
    else store_value

/-- Lines 146-152, over the reversed vector: re-wrap the varying lets from
outside the store. -/
def rewrap_outer_lets : List ContainingLet → Stmt → Stmt
  | [], body => body
  | it :: rest, body =>
    if it.from_store then rewrap_outer_lets rest body
    else if it.varying then rewrap_outer_lets rest (.LetStmt it.name it.value body)
    else rewrap_outer_lets rest body

/-- Lines 172-176, over the reversed vector: wrap the invariant lets. -/
def wrap_invariant_lets : List ContainingLet → Stmt → Stmt
  | [], iters => iters
  | it :: rest, iters =>
    if !it.varying then wrap_invariant_lets rest (.LetStmt it.name it.value iters)
    else wrap_invariant_lets rest iters

/-- Lines 116-143: if the stripped body is a single store, peel its value,
name the trailing value with a fresh name and rebuild the store. -/
def peel_store (O : Oracles) (body : Stmt) (ps : PeelState) (st : PassState) :
    Stmt × PeelState × PassState :=
  match body with
  | .Store name value index param predicate alignment =>
    let r := peel_Lets O value ps
    let value_name := O.unique_name 't' st.counter
    let ps2 := peel_let O r.2 value_name r.1 true
    let store_value := rewrap_store_lets ps2.lets.reverse (.Variable value_name)
    (.Store name store_value index param predicate alignment, ps2,
      { st with counter := st.counter + 1 })
  | s => (s, ps, st)

/-- Lines 93-152: the peeled lets and the body that will be specialised. -/
def peel_body (O : Oracles) (loop_name : String) (body : Stmt) (st : PassState) :
    Stmt × List ContainingLet × PassState :=
  let r1 := peel_LetStmts O body ⟨[], [loop_name]⟩
  let r2 := peel_store O r1.1 r1.2 st
  (rewrap_outer_lets r2.2.1.lets.reverse r2.1, r2.2.1.lets, r2.2.2)

/-! ## Specialisation (lines 154-170) -/

/-- Conversion of a 64-bit value to the 32-bit `int` loop counter. -/
def to_int32 (x : Int) : Int := (x + 2 ^ 31) % 2 ^ 32 - 2 ^ 31

/-- Number of times the body of `for (int i = e->value - 1; i >= 0; i--)` runs. -/
def iteration_count (e_value : Int) : Nat := (to_int32 (e_value - 1) + 1).toNat

/-- One pass through the body of the loop of line 155, for counter `i`. -/
def iters_step (O : Oracles) (name : String) (min extent : Expr) (body : Stmt)
    (use_guard : Bool) (i : Nat) (iters : Stmt) : Stmt :=
  let iter := O.simplify_stmt (O.substitute name (.Add min (.IntImm i)) body)
  let iters1 := if !iters.defined then iter else .Block iter iters
  if use_guard then
    .IfThenElse (likely_if_innermost (.LT (.IntImm i) extent)) iters1 .undef
  else iters1

/-- The loop of line 155 run for `i = k - 1` down to `0` on the accumulator. -/
def iters_loop (O : Oracles) (name : String) (min extent : Expr) (body : Stmt)
    (use_guard : Bool) : Nat → Stmt → Stmt
  | 0, iters => iters
  | k + 1, iters =>
    iters_loop O name min extent body use_guard k
      (iters_step O name min extent body use_guard k iters)

/-- Lines 85-178, given the resolved count and the already mutated body. -/
def unroll_body (O : Oracles) (name : String) (min extent : Expr) (e_value : Int)
    (use_guard : Bool) (body : Stmt) (st : PassState) : Stmt × PassState :=
  let p := peel_body O name body st
  let iters := iters_loop O name min extent p.1 use_guard (iteration_count e_value) .undef
  (wrap_invariant_lets p.2.1.reverse iters, p.2.2)

/-! ## The mutator -/

/-- The method `UnrollLoops::mutate` on statements: `visit (const LetStmt *)`,
`visit (const For *)`, and for the other nodes the base-class visitor, which
rebuilds the node from its mutated children.  `lets` is the member vector of
enclosing pure lets. -/
def mutate (O : Oracles) (permit_failed_unroll : Bool) :
    Stmt → List (String × Expr) → PassState → Except UnrollError (Stmt × PassState)
  | .undef, _, st => .ok (.undef, st)
  | .LetStmt name value body, lets, st =>
    match mutate O permit_failed_unroll body
        (if O.is_pure value then lets ++ [(name, value)] else lets) st with
    | .ok (b, st1) => .ok (.LetStmt name value b, st1)
    | .error err => .error err
  | .For name min extent for_type device_api body, lets, st =>
    if for_type = ForType.Unrolled then
      match (resolve O lets extent).e with
      | none =>
        if permit_failed_unroll then
          match mutate O permit_failed_unroll body lets (st.warn permit_warning) with
          | .ok (b, st1) => .ok (.For name min extent .Serial device_api b, st1)
          | .error err => .error err
        else .error ⟨name, (resolve O lets extent).extent⟩
      | some e_value =>
        match mutate O permit_failed_unroll body lets st with
        | .ok (b, st1) =>
          .ok (unroll_body O name min extent e_value (resolve O lets extent).use_guard b
            (if e_value = 1 then st1.warn (extent_one_warning name) else st1))
        | .error err => .error err
    else
      match mutate O permit_failed_unroll body lets st with
      | .ok (b, st1) => .ok (.For name min extent for_type device_api b, st1)
      | .error err => .error err
  | .Store name value index param predicate alignment, _, st =>
    .ok (.Store name value index param predicate alignment, st)
  | .Block first rest, lets, st =>
    match mutate O permit_failed_unroll first lets st with
    | .ok (f, st1) =>
      match mutate O permit_failed_unroll rest lets st1 with
      | .ok (r, st2) => .ok (.Block f r, st2)
      | .error err => .error err
    | .error err => .error err
  | .IfThenElse condition then_case else_case, lets, st =>
    match mutate O permit_failed_unroll then_case lets st with
    | .ok (t, st1) =>
      match mutate O permit_failed_unroll else_case lets st1 with
      | .ok (e, st2) => .ok (.IfThenElse condition t e, st2)
      | .error err => .error err
    | .error err => .error err
  | .Evaluate value, _, st => .ok (.Evaluate value, st)

/-- The entry point `unroll_loops`: a fresh mutator (empty `lets`) applied to `s`. -/
def unroll_loops (O : Oracles) (permit_failed_unroll : Bool) (s : Stmt) (st : PassState) :
    Except UnrollError (Stmt × PassState) :=
  mutate O permit_failed_unroll s [] st

/-! ## Specification-side notions -/

/-- Whether a loop node tagged `Unrolled` occurs anywhere in the tree. -/
def contains_unrolled : Stmt → Bool
  | .undef => false
  | .LetStmt _ _ body => contains_unrolled body
  | .For _ _ _ for_type _ body => decide (for_type = ForType.Unrolled) || contains_unrolled body
  | .Store _ _ _ _ _ _ => false
  | .Block first rest => contains_unrolled first || contains_unrolled rest
  | .IfThenElse _ then_case else_case => contains_unrolled then_case || contains_unrolled else_case
  | .Evaluate _ => false

/-- The statements of a right-nested chain of blocks, in execution order. -/
def flatten_blocks : Stmt → List Stmt
  | .undef => []
  | .Block first rest => first :: flatten_blocks rest
  | .LetStmt n v b => [.LetStmt n v b]
  | .For n m e t d b => [.For n m e t d b]
  | .Store n v i p pr a => [.Store n v i p pr a]
  | .IfThenElse c t e => [.IfThenElse c t e]
  | .Evaluate v => [.Evaluate v]

/-- The copy for iteration `i`: `simplify (substitute (name, min + i, body))`. -/
def copy_at (O : Oracles) (name : String) (min : Expr) (body : Stmt) (i : Nat) : Stmt :=
  O.simplify_stmt (O.substitute name (.Add min (.IntImm i)) body)

/-- Sequence `Block (c_0, Block (c_1, ... c_last))` of a list of statements;
the empty sequence is the undefined statement. -/
def block_chain : List Stmt → Stmt
  | [] => .undef
  | [c] => c
  | c :: d :: rest => .Block c (block_chain (d :: rest))

/-- Wrap the bindings of a list around a statement, first binding outermost. -/
def wrap_LetStmts (ls : List ContainingLet) (s : Stmt) : Stmt :=
  ls.foldr (fun l acc => Stmt.LetStmt l.name l.value acc) s

/-- Wrap the bindings of a list around an expression, first binding outermost. -/
def wrap_Lets (ls : List ContainingLet) (e : Expr) : Expr :=
  ls.foldr (fun l acc => Expr.Let l.name l.value acc) e

/-! ## Reference collaborators

Concrete stand-ins for the collaborators, used to run the pass on examples. -/

/-- Modelled from the spec: the expression simplifier (`Simplify.cpp` is not
among the sources); constant folding of sums, products, minima and
comparisons of literals, and removal of a zero summand. -/
def ref_simplify : Expr → Expr
  | .IntImm v => .IntImm v
  | .Variable n => .Variable n
  | .Add a b =>
    match ref_simplify a, ref_simplify b with
    | .IntImm x, .IntImm y => .IntImm (x + y)
    | x, .IntImm 0 => x
    | .IntImm 0, y => y
    | x, y => .Add x y
  | .Mul a b =>
    match ref_simplify a, ref_simplify b with
    | .IntImm x, .IntImm y => .IntImm (x * y)
    | x, y => .Mul x y
  | .Min a b =>
    match ref_simplify a, ref_simplify b with
    | .IntImm x, .IntImm y => .IntImm (min x y)
    | x, y => .Min x y
  | .LT a b =>
    match ref_simplify a, ref_simplify b with
    | .IntImm x, .IntImm y => .IntImm (if x < y then 1 else 0)
    | x, y => .LT x y
  | .Let n v b => .Let n (ref_simplify v) (ref_simplify b)
  | .Select c t f => .Select (ref_simplify c) (ref_simplify t) (ref_simplify f)
  | .Load n i => .Load n (ref_simplify i)
  | .Call n a => .Call n (ref_simplify a)

/-- Modelled from the spec: the statement simplifier (`Simplify.cpp` is not
among the sources); simplifies every expression of the statement. -/
def ref_simplify_stmt : Stmt → Stmt
  | .undef => .undef
  | .LetStmt n v b => .LetStmt n (ref_simplify v) (ref_simplify_stmt b)
  | .For n m e t d b => .For n (ref_simplify m) (ref_simplify e) t d (ref_simplify_stmt b)
  | .Store n v i p pr a => .Store n (ref_simplify v) (ref_simplify i) p (ref_simplify pr) a
  | .Block f r => .Block (ref_simplify_stmt f) (ref_simplify_stmt r)
  | .IfThenElse c t e => .IfThenElse (ref_simplify c) (ref_simplify_stmt t) (ref_simplify_stmt e)
  | .Evaluate v => .Evaluate (ref_simplify v)

/-- Modelled from the spec: substitution in expressions (`Substitute.cpp` is
not among the sources); a binding of the same name hides the variable. -/
def ref_substitute_expr (name : String) (r : Expr) : Expr → Expr
  | .IntImm v => .IntImm v
  | .Variable n => if n = name then r else .Variable n
  | .Add a b => .Add (ref_substitute_expr name r a) (ref_substitute_expr name r b)
  | .Mul a b => .Mul (ref_substitute_expr name r a) (ref_substitute_expr name r b)
  | .Min a b => .Min (ref_substitute_expr name r a) (ref_substitute_expr name r b)
  | .LT a b => .LT (ref_substitute_expr name r a) (ref_substitute_expr name r b)
  | .Let n v b =>
    .Let n (ref_substitute_expr name r v) (if n = name then b else ref_substitute_expr name r b)
  | .Select c t f =>
    .Select (ref_substitute_expr name r c) (ref_substitute_expr name r t)
      (ref_substitute_expr name r f)
  | .Load n i => .Load n (ref_substitute_expr name r i)
  | .Call n a => .Call n (ref_substitute_expr name r a)

/-- Modelled from the spec: substitution in statements (`Substitute.cpp` is
not among the sources). -/
def ref_substitute (name : String) (r : Expr) : Stmt → Stmt
  | .undef => .undef
  | .LetStmt n v b =>
    .LetStmt n (ref_substitute_expr name r v) (if n = name then b else ref_substitute name r b)
  | .For n m e t d b =>
    .For n (ref_substitute_expr name r m) (ref_substitute_expr name r e) t d
      (if n = name then b else ref_substitute name r b)
  | .Store n v i p pr a =>
    .Store n (ref_substitute_expr name r v) (ref_substitute_expr name r i) p
      (ref_substitute_expr name r pr) a
  | .Block f rest => .Block (ref_substitute name r f) (ref_substitute name r rest)
  | .IfThenElse c t e =>
    .IfThenElse (ref_substitute_expr name r c) (ref_substitute name r t) (ref_substitute name r e)
  | .Evaluate v => .Evaluate (ref_substitute_expr name r v)

/-- Modelled from the spec: removal of the branch-hint markers. -/
def ref_remove_likelies : Expr → Expr
  | .IntImm v => .IntImm v
  | .Variable n => .Variable n
  | .Add a b => .Add (ref_remove_likelies a) (ref_remove_likelies b)
  | .Mul a b => .Mul (ref_remove_likelies a) (ref_remove_likelies b)
  | .Min a b => .Min (ref_remove_likelies a) (ref_remove_likelies b)
  | .LT a b => .LT (ref_remove_likelies a) (ref_remove_likelies b)
  | .Let n v b => .Let n (ref_remove_likelies v) (ref_remove_likelies b)
  | .Select c t f =>
    .Select (ref_remove_likelies c) (ref_remove_likelies t) (ref_remove_likelies f)
  | .Load n i => .Load n (ref_remove_likelies i)
  | .Call n a =>
    if n = "likely" ∨ n = "likely_if_innermost" then ref_remove_likelies a
    else .Call n (ref_remove_likelies a)

/-- Modelled from the spec: inlining of every binding by substitution. -/
def ref_substitute_in_all_lets : Expr → Expr
  | .IntImm v => .IntImm v
  | .Variable n => .Variable n
  | .Add a b => .Add (ref_substitute_in_all_lets a) (ref_substitute_in_all_lets b)
  | .Mul a b => .Mul (ref_substitute_in_all_lets a) (ref_substitute_in_all_lets b)
  | .Min a b => .Min (ref_substitute_in_all_lets a) (ref_substitute_in_all_lets b)
  | .LT a b => .LT (ref_substitute_in_all_lets a) (ref_substitute_in_all_lets b)
  | .Let n v b =>
    ref_substitute_expr n (ref_substitute_in_all_lets v) (ref_substitute_in_all_lets b)
  | .Select c t f =>
    .Select (ref_substitute_in_all_lets c) (ref_substitute_in_all_lets t)
      (ref_substitute_in_all_lets f)
  | .Load n i => .Load n (ref_substitute_in_all_lets i)
  | .Call n a => .Call n (ref_substitute_in_all_lets a)

/-- Modelled from the spec: a sound constant upper bound, or unknown. -/
def ref_upper_bound : Expr → Option Int
  | .IntImm v => some v
  | .Min a b =>
    match ref_upper_bound a, ref_upper_bound b with
    | some x, some y => some (min x y)
    | some x, none => some x
    | none, some y => some y
    | none, none => none
  | .Add a b =>
    match ref_upper_bound a, ref_upper_bound b with
    | some x, some y => some (x + y)
    | _, _ => none
  | _ => none

/-- Modelled from the spec: the side-effect test; only calls outside the pure
intrinsics have an observable effect, loads have none. -/
def ref_has_side_effect : Expr → Bool
  | .IntImm _ => false
  | .Variable _ => false
  | .Add a b => ref_has_side_effect a || ref_has_side_effect b
  | .Mul a b => ref_has_side_effect a || ref_has_side_effect b
  | .Min a b => ref_has_side_effect a || ref_has_side_effect b
  | .LT a b => ref_has_side_effect a || ref_has_side_effect b
  | .Let _ v b => ref_has_side_effect v || ref_has_side_effect b
  | .Select c t f => ref_has_side_effect c || ref_has_side_effect t || ref_has_side_effect f
  | .Load _ i => ref_has_side_effect i
  | .Call n a =>
    (!decide (n = "likely" ∨ n = "likely_if_innermost")) || ref_has_side_effect a

/-- Modelled from the spec: the free-variable test `uses_any (expr, name_set)`;
buffer names of loads count as names. -/
def ref_expr_uses_vars : Expr → List String → Bool
  | .IntImm _, _ => false
  | .Variable n, vars => vars.contains n
  | .Add a b, vars => ref_expr_uses_vars a vars || ref_expr_uses_vars b vars
  | .Mul a b, vars => ref_expr_uses_vars a vars || ref_expr_uses_vars b vars
  | .Min a b, vars => ref_expr_uses_vars a vars || ref_expr_uses_vars b vars
  | .LT a b, vars => ref_expr_uses_vars a vars || ref_expr_uses_vars b vars
  | .Let _ v b, vars => ref_expr_uses_vars v vars || ref_expr_uses_vars b vars
  | .Select c t f, vars =>
    ref_expr_uses_vars c vars || ref_expr_uses_vars t vars || ref_expr_uses_vars f vars
  | .Load n i, vars => vars.contains n || ref_expr_uses_vars i vars
  | .Call _ a, vars => ref_expr_uses_vars a vars

/-- Modelled from the spec: the fresh-name generator, prefix character
followed by the decimal counter. -/
def ref_unique_name (c : Char) (n : Nat) : String :=
  String.mk (c :: Nat.toDigits 10 n)

/-- The reference collaborators bundled. -/
def ref_oracles : Oracles where
  simplify := ref_simplify
  simplify_stmt := ref_simplify_stmt
  substitute := ref_substitute
  remove_likelies := ref_remove_likelies
  substitute_in_all_lets := ref_substitute_in_all_lets
  find_constant_bound := fun e => (ref_upper_bound e).map Expr.IntImm
  is_pure := fun e => !ref_has_side_effect e
  has_side_effect := ref_has_side_effect
  expr_uses_vars := ref_expr_uses_vars
  unique_name := ref_unique_name

/-! ## Execution semantics

A store-trace semantics of the IR, used to state the equivalence properties.
Every loop kind runs its iterations in ascending order. -/

/-- Values of the variables in scope. -/
abbrev Env := String → Int

/-- Contents of the buffers. -/
abbrev Mem := String → Int → Int

/-- One observable store: target buffer, index, value written. -/
structure StoreEvent where
  target : String
  index : Int
  value : Int
  deriving DecidableEq, Repr

/-- Bind a variable. -/
def Env.bind (env : Env) (name : String) (v : Int) : Env :=
  fun n => if n = name then v else env n

/-- Write one element of a buffer. -/
def Mem.write (mem : Mem) (name : String) (index v : Int) : Mem :=
  fun n i => if n = name ∧ i = index then v else mem n i

/-- Value of an expression; comparisons give 1 or 0, the branch-hint and other
intrinsics return their argument. -/
def eval (env : Env) (mem : Mem) : Expr → Int
  | .IntImm v => v
  | .Variable n => env n
  | .Add a b => eval env mem a + eval env mem b
  | .Mul a b => eval env mem a * eval env mem b
  | .Min a b => min (eval env mem a) (eval env mem b)
  | .LT a b => if eval env mem a < eval env mem b then 1 else 0
  | .Let n v b => eval (env.bind n (eval env mem v)) mem b
  | .Select c t f => if eval env mem c ≠ 0 then eval env mem t else eval env mem f
  | .Load n i => mem n (eval env mem i)
  | .Call _ a => eval env mem a

/-- Run `count` iterations of `step` for the loop values `lo, lo + 1, ...`,
threading the memory and concatenating the traces. -/
def run_iterations (step : Int → Mem → Option (Mem × List StoreEvent)) :
    Int → Nat → Mem → Option (Mem × List StoreEvent)
  | _, 0, mem => some (mem, [])
  | lo, k + 1, mem =>
    match step lo mem with
    | none => none
    | some (m1, t1) =>
      match run_iterations step (lo + 1) k m1 with
      | none => none
      | some (m2, t2) => some (m2, t1 ++ t2)

/-- Execute a statement: the final memory and the sequence of stores, or
`none` when an undefined statement is reached. -/
def exec : Stmt → Env → Mem → Option (Mem × List StoreEvent)
  | .undef, _, _ => none
  | .LetStmt n v b, env, mem => exec b (env.bind n (eval env mem v)) mem
  | .For n m e _ _ b, env, mem =>
    run_iterations (fun i mem1 => exec b (env.bind n i) mem1) (eval env mem m)
      (eval env mem e).toNat mem
  | .Store n v i _ pr _, env, mem =>
    if eval env mem pr ≠ 0 then
      some (mem.write n (eval env mem i) (eval env mem v),
        [⟨n, eval env mem i, eval env mem v⟩])
    else some (mem, [])
  | .Block f r, env, mem =>
    match exec f env mem with
    | none => none
    | some (m1, t1) =>
      match exec r env m1 with
      | none => none
      | some (m2, t2) => some (m2, t1 ++ t2)
  | .IfThenElse c t e, env, mem =>
    if eval env mem c ≠ 0 then exec t env mem
    else if e.defined then exec e env mem
    else some (mem, [])
  | .Evaluate _, _, mem => some (mem, [])

/-- The stores of executing `body` for the loop values `lo, ..., lo + count - 1`
in increasing order. -/
def iterate_body (name : String) (body : Stmt) (env : Env) (lo : Int) (count : Nat)
    (mem : Mem) : Option (List StoreEvent) :=
  (run_iterations (fun i mem1 => exec body (env.bind name i) mem1) lo count mem).map Prod.snd

/-- The stores of executing a statement. -/
def trace (s : Stmt) (env : Env) (mem : Mem) : Option (List StoreEvent) :=
  (exec s env mem).map Prod.snd

/-! ## Specification of the failure condition -/

/-- The extent after resolution step 2: the simplified extent wrapped in the
enclosing pure bindings (first binding outermost), branch hints removed,
bindings inlined, simplified again. -/
def inlined_extent (O : Oracles) (lets : List (String × Expr)) (extent : Expr) : Expr :=
  O.simplify (O.substitute_in_all_lets (O.remove_likelies
    (lets.foldr (fun p acc => Expr.Let p.1 p.2 acc) (O.simplify extent))))

/-- All three resolution steps fail: the simplified extent is no integer
literal, the extent with the enclosing bindings inlined is no integer literal,
and the bounds oracle gives no integer-literal upper bound. -/
def all_steps_fail (O : Oracles) (lets : List (String × Expr)) (extent : Expr) : Bool :=
  (as_IntImm (O.simplify extent)).isNone &&
  ((as_IntImm (inlined_extent O lets extent)).isNone &&
  ((O.find_constant_bound (inlined_extent O lets extent)).bind as_IntImm).isNone)

/-- The `Unrolled` loops of a tree for which all three resolution steps fail,
in the order the walker meets them, each with its name and its extent after
step 2; `lets` holds the pure bindings that enclose the tree. -/
def unresolved_loops (O : Oracles) : Stmt → List (String × Expr) → List UnrollError
  | .undef, _ => []
  | .LetStmt n v b, lets =>
    unresolved_loops O b (if O.is_pure v then lets ++ [(n, v)] else lets)
  | .For n _ e t _ b, lets =>
    (if t = ForType.Unrolled ∧ all_steps_fail O lets e = true
      then [⟨n, inlined_extent O lets e⟩] else []) ++ unresolved_loops O b lets
  | .Store _ _ _ _ _ _, _ => []
  | .Block f r, lets => unresolved_loops O f lets ++ unresolved_loops O r lets
  | .IfThenElse _ t e, lets => unresolved_loops O t lets ++ unresolved_loops O e lets
  | .Evaluate _, _ => []

/-! ## Specification of the peeler -/

/-- A binding as the peeler meets it, before classification. -/
structure RawLet where
  name : String
  value : Expr
  from_store : Bool
  deriving DecidableEq, Repr

/-- The chain of binding statements in front of a statement, outermost first. -/
def leading_LetStmts : Stmt → List (String × Expr)
  | .LetStmt n v b => (n, v) :: leading_LetStmts b
  | _ => []

/-- The statement left once the leading binding statements are removed. -/
def strip_LetStmts : Stmt → Stmt
  | .LetStmt _ _ b => strip_LetStmts b
  | s => s

/-- The chain of bindings in front of an expression, outermost first. -/
def leading_Lets : Expr → List (String × Expr)
  | .Let n v b => (n, v) :: leading_Lets b
  | _ => []

/-- The expression left once the leading bindings are removed. -/
def strip_Lets : Expr → Expr
  | .Let _ _ b => strip_Lets b
  | e => e

/-- Classify bindings in order: a binding is varying when its value uses a
name of the varying set or has a side effect, and a varying binding adds its
name to the set seen by the later ones. -/
def classify (O : Oracles) : List String → List RawLet → List ContainingLet
  | _, [] => []
  | vs, r :: rest =>
    ⟨r.name, r.value, O.expr_uses_vars r.value vs || O.has_side_effect r.value, r.from_store⟩ ::
      classify O
        (if O.expr_uses_vars r.value vs || O.has_side_effect r.value then r.name :: vs else vs)
        rest

/-- The varying set after classifying a list of bindings. -/
def classify_scope (O : Oracles) : List String → List RawLet → List String
  | vs, [] => vs
  | vs, r :: rest =>
    classify_scope O
      (if O.expr_uses_vars r.value vs || O.has_side_effect r.value then r.name :: vs else vs)
      rest

/-- The bindings in front of the loop body. -/
def body_bindings (body : Stmt) : List RawLet :=
  (leading_LetStmts body).map (fun p => ⟨p.1, p.2, false⟩)

/-- The bindings taken from a store: the chain in front of its value, then the
fresh name bound to the trailing value.  Nothing for any other statement. -/
def store_bindings (O : Oracles) (st : PassState) : Stmt → List RawLet
  | .Store _ value _ _ _ _ =>
    (leading_Lets value).map (fun p => ⟨p.1, p.2, true⟩) ++
      [⟨O.unique_name 't' st.counter, strip_Lets value, true⟩]
  | _ => []

/-- All bindings the peeler meets in a loop body, in the order it meets them. -/
def raw_bindings (O : Oracles) (body : Stmt) (st : PassState) : List RawLet :=
  body_bindings body ++ store_bindings O st (strip_LetStmts body)

/-- The peeled bindings of a loop body with their classification. -/
def peeled_bindings (O : Oracles) (name : String) (body : Stmt) (st : PassState) :
    List ContainingLet :=
  classify O [name] (raw_bindings O body st)

/-- The invariant bindings, to be wrapped around the sequence of copies. -/
def hoisted_bindings (O : Oracles) (name : String) (body : Stmt) (st : PassState) :
    List ContainingLet :=
  (peeled_bindings O name body st).filter (fun l => !l.varying)

/-- The store rebuilt around the varying bindings peeled from its value, which
end in a reference to the fresh name; any other statement is left as it is. -/
def rebuilt_core (O : Oracles) (st : PassState) (peeled : List ContainingLet) : Stmt → Stmt
  | .Store n _ i p pr a =>
    .Store n (wrap_Lets (peeled.filter (fun l => l.from_store && l.varying))
      (.Variable (O.unique_name 't' st.counter))) i p pr a
  | s => s

/-- The body from which the copies are specialised: the varying bindings that
stood in front of the body, wrapped around the rebuilt remainder. -/
def specialised_body (O : Oracles) (name : String) (body : Stmt) (st : PassState) : Stmt :=
  wrap_LetStmts ((peeled_bindings O name body st).filter (fun l => !l.from_store && l.varying))
    (rebuilt_core O st (peeled_bindings O name body st) (strip_LetStmts body))

/-- The guarded sequence built from outside in: conditional `i` encloses copy
`i` followed by the conditionals of all later copies; no else-branch. -/
def guard_nest (O : Oracles) (name : String) (min extent : Expr) (body : Stmt) :
    Nat → Nat → Stmt
  | _, 0 => .undef
  | i, 1 => .IfThenElse (likely_if_innermost (.LT (.IntImm i) extent))
      (copy_at O name min body i) .undef
  | i, k + 2 => .IfThenElse (likely_if_innermost (.LT (.IntImm i) extent))
      (.Block (copy_at O name min body i) (guard_nest O name min extent body (i + 1) (k + 1)))
      Stmt.undef

/-- Number of bindings of a name inside an expression. -/
def Expr.binding_count (name : String) : Expr → Nat
  | .IntImm _ => 0
  | .Variable _ => 0
  | .Add a b => a.binding_count name + b.binding_count name
  | .Mul a b => a.binding_count name + b.binding_count name
  | .Min a b => a.binding_count name + b.binding_count name
  | .LT a b => a.binding_count name + b.binding_count name
  | .Let n v b => (if n = name then 1 else 0) + v.binding_count name + b.binding_count name
  | .Select c t f => c.binding_count name + t.binding_count name + f.binding_count name
  | .Load _ i => i.binding_count name
  | .Call _ a => a.binding_count name

/-- Number of bindings of a name inside a statement. -/
def Stmt.binding_count (name : String) : Stmt → Nat
  | .undef => 0
  | .LetStmt n v b => (if n = name then 1 else 0) + v.binding_count name + b.binding_count name
  | .For _ m e _ _ b => m.binding_count name + e.binding_count name + b.binding_count name
  | .Store _ v i _ pr _ => v.binding_count name + i.binding_count name + pr.binding_count name
  | .Block f r => f.binding_count name + r.binding_count name
  | .IfThenElse c t e => c.binding_count name + t.binding_count name + e.binding_count name
  | .Evaluate v => v.binding_count name

/-- The sequence the specialiser builds from `count` copies: the guarded nest,
or the plain chain of blocks. -/
def sequence_of_copies (O : Oracles) (name : String) (min extent : Expr) (body : Stmt)
    (use_guard : Bool) (count : Nat) : Stmt :=
  if use_guard then guard_nest O name min extent body 0 count
  else block_chain ((List.range count).map (copy_at O name min body))

/-! ## Example trees -/

/-- The state in which the examples are run. -/
def st0 : PassState := ⟨[], 0⟩

/-- An environment and a memory holding zero everywhere. -/
def env0 : Env := fun _ => 0

/-- A memory holding zero everywhere. -/
def mem0 : Mem := fun _ _ => 0

/-- A store `name[index] = value` with a true predicate. -/
def store_to (name : String) (index value : Expr) : Stmt :=
  .Store name value index "" (.IntImm 1) (1, 0)

/-- Loop `v` over `[0, 3)` with body `let k = C in out[v] = k + v`. -/
def example_1 : Stmt :=
  .For "v" (.IntImm 0) (.IntImm 3) .Unrolled .None
    (.LetStmt "k" (.Variable "C")
      (store_to "out" (.Variable "v") (.Add (.Variable "k") (.Variable "v"))))

/-- Loop `v` over `[0, 2)` with body `let t = in[v] in out[v] = t * t`. -/
def example_2 : Stmt :=
  .For "v" (.IntImm 0) (.IntImm 2) .Unrolled .None
    (.LetStmt "t" (.Load "in" (.Variable "v"))
      (store_to "out" (.Variable "v") (.Mul (.Variable "t") (.Variable "t"))))

/-- Loop `v` over `[0, min (n, 8))` with body `out[v] = v`: the extent is a
runtime value with upper bound 8. -/
def example_4 : Stmt :=
  .For "v" (.IntImm 0) (.Min (.Variable "n") (.IntImm 8)) .Unrolled .None
    (store_to "out" (.Variable "v") (.Variable "v"))

/-- Loop `v` over `[0, n)` with body `out[v] = v`: nothing is known about `n`. -/
def example_5 : Stmt :=
  .For "v" (.IntImm 0) (.Variable "n") .Unrolled .None
    (store_to "out" (.Variable "v") (.Variable "v"))

/-- Loop `v` over `[0, min (n, 2))` with body `out[v] = v`. -/
def guarded_pair : Stmt :=
  .For "v" (.IntImm 0) (.Min (.Variable "n") (.IntImm 2)) .Unrolled .None
    (store_to "out" (.Variable "v") (.Variable "v"))

/-- Body `f[0] = f[0] + 1`. -/
def accumulate_body : Stmt :=
  store_to "f" (.IntImm 0) (.Add (.Load "f" (.IntImm 0)) (.IntImm 1))

/-- Loop `r` over `[0, 2)` with body `f[0] = f[0] + 1`. -/
def accumulate_loop : Stmt :=
  .For "r" (.IntImm 0) (.IntImm 2) .Unrolled .None accumulate_body

/-- What the pass returns for `accumulate_loop`. -/
def accumulate_unrolled : Stmt :=
  .LetStmt "t0" (.Add (.Load "f" (.IntImm 0)) (.IntImm 1))
    (.Block (store_to "f" (.IntImm 0) (.Variable "t0"))
      (store_to "f" (.IntImm 0) (.Variable "t0")))

/-- Loop `r` over `[0, min (n, 2))` with body `f[0] = f[0] + 1`. -/
def accumulate_guarded_loop : Stmt :=
  .For "r" (.IntImm 0) (.Min (.Variable "n") (.IntImm 2)) .Unrolled .None accumulate_body

/-- What the pass returns for `accumulate_guarded_loop`. -/
def accumulate_guarded_unrolled : Stmt :=
  .LetStmt "t0" (.Add (.Load "f" (.IntImm 0)) (.IntImm 1))
    (.IfThenElse
      (likely_if_innermost (.LT (.IntImm 0) (.Min (.Variable "n") (.IntImm 2))))
      (.Block (store_to "f" (.IntImm 0) (.Variable "t0"))
        (.IfThenElse
          (likely_if_innermost (.LT (.IntImm 1) (.Min (.Variable "n") (.IntImm 2))))
          (store_to "f" (.IntImm 0) (.Variable "t0")) .undef))
      .undef)

/-- Loop `v` whose extent is the 64-bit literal `2 ^ 32`, body `out[v] = v`. -/
def huge_loop : Stmt :=
  .For "v" (.IntImm 0) (.IntImm 4294967296) .Unrolled .None
    (store_to "out" (.Variable "v") (.Variable "v"))

/-- Loop `v` over `[0, 2)` with body `let a = v in let b = a in out[v] = b`. -/
def transitive_loop : Stmt :=
  .For "v" (.IntImm 0) (.IntImm 2) .Unrolled .None
    (.LetStmt "a" (.Variable "v") (.LetStmt "b" (.Variable "a")
      (store_to "out" (.Variable "v") (.Variable "b"))))

/-- Loop `v` over `[0, 2)` whose body is a block; the first statement of the
block is `let k = 7 in out[v] = k`. -/
def inner_binding_loop : Stmt :=
  .For "v" (.IntImm 0) (.IntImm 2) .Unrolled .None
    (.Block (.LetStmt "k" (.IntImm 7) (store_to "out" (.Variable "v") (.Variable "k")))
      (.Evaluate (.IntImm 0)))

/-- A tree with an unrolled loop nested in a serial loop, beside an unrolled
loop whose extent cannot be resolved. -/
def mixed_tree : Stmt :=
  .Block (.For "y" (.IntImm 0) (.Variable "h") .Serial .None example_2) example_5

/-- What the permissive pass returns for `mixed_tree`. -/
def mixed_tree_unrolled : Stmt :=
  .Block
    (.For "y" (.IntImm 0) (.Variable "h") .Serial .None
      (.Block
        (.LetStmt "t" (.Load "in" (.IntImm 0))
          (store_to "out" (.IntImm 0)
            (.Let "t0" (.Mul (.Variable "t") (.Variable "t")) (.Variable "t0"))))
        (.LetStmt "t" (.Load "in" (.IntImm 1))
          (store_to "out" (.IntImm 1)
            (.Let "t0" (.Mul (.Variable "t") (.Variable "t")) (.Variable "t0"))))))
    (.For "v" (.IntImm 0) (.Variable "n") .Serial .None
      (store_to "out" (.Variable "v") (.Variable "v")))

/-- The shape in which every copy sits alone under its own conditional and
the conditionals follow one another in a chain of blocks. -/
def flat_guards (O : Oracles) (name : String) (min extent : Expr) (body : Stmt)
    (count : Nat) : Stmt :=
  block_chain ((List.range count).map (fun (i : Nat) =>
    Stmt.IfThenElse (likely_if_innermost (.LT (.IntImm i) extent))
      (copy_at O name min body i) .undef))

/-- Copy `i` of `guarded_pair`. -/
def guarded_pair_copy (i : Int) : Stmt :=
  store_to "out" (.IntImm i) (.Let "t0" (.IntImm i) (.Variable "t0"))

/-- The test guarding copy `i` of `guarded_pair`. -/
def guarded_pair_test (i : Int) : Expr :=
  likely_if_innermost (.LT (.IntImm i) (.Min (.Variable "n") (.IntImm 2)))

/-- What the pass returns for `guarded_pair`. -/
def guarded_pair_unrolled : Stmt :=
  .IfThenElse (guarded_pair_test 0)
    (.Block (guarded_pair_copy 0)
      (.IfThenElse (guarded_pair_test 1) (guarded_pair_copy 1) .undef))
    Stmt.undef

/-- The body of `example_1`. -/
def example_1_body : Stmt :=
  .LetStmt "k" (.Variable "C")
    (store_to "out" (.Variable "v") (.Add (.Variable "k") (.Variable "v")))

/-- What the pass returns for `example_1`: `k` bound once around three copies. -/
def example_1_unrolled : Stmt :=
  .LetStmt "k" (.Variable "C")
    (.Block (store_to "out" (.IntImm 0) (.Let "t0" (.Variable "k") (.Variable "t0")))
      (.Block
        (store_to "out" (.IntImm 1)
          (.Let "t0" (.Add (.Variable "k") (.IntImm 1)) (.Variable "t0")))
        (store_to "out" (.IntImm 2)
          (.Let "t0" (.Add (.Variable "k") (.IntImm 2)) (.Variable "t0")))))

/-- The body of `example_2`. -/
def example_2_body : Stmt :=
  .LetStmt "t" (.Load "in" (.Variable "v"))
    (store_to "out" (.Variable "v") (.Mul (.Variable "t") (.Variable "t")))

/-- The body from which the copies of `example_2` are specialised. -/
def example_2_specialised : Stmt :=
  .LetStmt "t" (.Load "in" (.Variable "v"))
    (store_to "out" (.Variable "v")
      (.Let "t0" (.Mul (.Variable "t") (.Variable "t")) (.Variable "t0")))

/-- What the pass returns for `example_2`: `t` bound in each of the two copies. -/
def example_2_unrolled : Stmt :=
  .Block
    (.LetStmt "t" (.Load "in" (.IntImm 0))
      (store_to "out" (.IntImm 0)
        (.Let "t0" (.Mul (.Variable "t") (.Variable "t")) (.Variable "t0"))))
    (.LetStmt "t" (.Load "in" (.IntImm 1))
      (store_to "out" (.IntImm 1)
        (.Let "t0" (.Mul (.Variable "t") (.Variable "t")) (.Variable "t0"))))

/-- Execute the copies `i, i + 1, ..., i + count - 1` of a body one after the
other, threading the memory and concatenating the traces. -/
def run_copies (O : Oracles) (name : String) (min : Expr) (body : Stmt) (env : Env) :
    Nat → Nat → Mem → Option (Mem × List StoreEvent)
  | _, 0, mem => some (mem, [])
  | i, k + 1, mem =>
    match exec (copy_at O name min body i) env mem with
    | none => none
    | some (m1, t1) =>
      match run_copies O name min body env (i + 1) k m1 with
      | none => none
      | some (m2, t2) => some (m2, t1 ++ t2)

/-! ## Device allocation cache (`src/runtime/allocation_cache.cpp`) -/

/-- The opaque `void *user_context`. -/
abbrev UserContext := Nat

/-- A registered pool; only `release_unused` is called here.  It returns a
`halide_error_code_t`, zero being `halide_error_code_success`. -/
structure halide_device_allocation_pool where
  release_unused : UserContext → Int

/-- The globals of the file: the flag (initially `true`) and the list of
pools linked through `next` (initially `nullptr`). -/
structure AllocationCache where
  halide_reuse_device_allocations_flag : Bool
  device_allocation_pools : List halide_device_allocation_pool

/-- The globals as initialised at lines 9-12. -/
def AllocationCache.initial : AllocationCache := ⟨true, []⟩

/-- The loop of lines 26-31: call `release_unused` on every pool and keep the
last non-zero return code. -/
def release_all (user_context : UserContext) :
    List halide_device_allocation_pool → Int → Int
  | [], err => err
  | p :: next, err =>
    release_all user_context next
      (if p.release_unused user_context ≠ 0 then p.release_unused user_context else err)

/-- The function `halide_reuse_device_allocations`: the error code returned and
the globals afterwards. -/
def halide_reuse_device_allocations (g : AllocationCache) (user_context : UserContext)
    (flag : Bool) : Int × AllocationCache :=
  let g1 : AllocationCache := { g with halide_reuse_device_allocations_flag := flag }
  (if !flag then release_all user_context g1.device_allocation_pools 0 else 0, g1)

/-- The function `halide_can_reuse_device_allocations`. -/
def halide_can_reuse_device_allocations (g : AllocationCache) (_user_context : UserContext) :
    Bool :=
  g.halide_reuse_device_allocations_flag

/-- The function `halide_register_device_allocation_pool`. -/
def halide_register_device_allocation_pool (g : AllocationCache)
    (pool : halide_device_allocation_pool) : AllocationCache :=
  { g with device_allocation_pools := pool :: g.device_allocation_pools }

/-- A call made by a client of the cache. -/
inductive CacheCall where
  | reuse (user_context : UserContext) (flag : Bool)
  | register (pool : halide_device_allocation_pool)

/-- The globals after one call. -/
def CacheCall.run (g : AllocationCache) : CacheCall → AllocationCache
  | .reuse user_context flag => (halide_reuse_device_allocations g user_context flag).2
  | .register pool => halide_register_device_allocation_pool g pool

/-- The globals after a sequence of calls, first call first. -/
def run_calls (g : AllocationCache) (calls : List CacheCall) : AllocationCache :=
  calls.foldl CacheCall.run g

/-- The flag passed to the most recent call of `halide_reuse_device_allocations`
in a sequence of calls, if there was one. -/
def last_flag : List CacheCall → Option Bool
  | [] => none
  | .reuse _ flag :: rest => (last_flag rest).orElse (fun _ => some flag)
  | .register _ :: rest => last_flag rest

/-! ## Further example trees -/

/-- Loop `v` over `[0, min (n, 1))` with body `out[v] = v`: the extent has the
upper bound 1 but is not resolved exactly. -/
def trivial_guarded_loop : Stmt :=
  .For "v" (.IntImm 0) (.Min (.Variable "n") (.IntImm 1)) .Unrolled .None
    (store_to "out" (.Variable "v") (.Variable "v"))

/-- Loop `w` over `[0, 1)` whose body is `example_5`, an unrolled loop that
cannot be resolved. -/
def trivial_failing_loop : Stmt :=
  .For "w" (.IntImm 0) (.IntImm 1) .Unrolled .None example_5

/-- Loop `y` over `[0, 1)` with body `out[y] = 7`. -/
def inner_single_loop : Stmt :=
  .For "y" (.IntImm 0) (.IntImm 1) .Unrolled .None
    (store_to "out" (.Variable "y") (.IntImm 7))

/-- Loop `x` over `[0, 2)` whose body is `inner_single_loop`. -/
def nested_loops : Stmt :=
  .For "x" (.IntImm 0) (.IntImm 2) .Unrolled .None inner_single_loop

/-- The order of the specification text for a resolved loop: the peeler runs
on the loop body first, the walker then processes the peeled body, the copies
are specialised from the walked body, and the invariant bindings the peeler
found are wrapped around them. -/
def unroll_peel_first (O : Oracles) (permit : Bool) (lets : List (String × Expr))
    (name : String) (min extent : Expr) (e_value : Int) (use_guard : Bool) (body : Stmt)
    (st : PassState) : Except UnrollError (Stmt × PassState) :=
  match mutate O permit (peel_body O name body st).1 lets (peel_body O name body st).2.2 with
  | .ok (b, st1) =>
    .ok (wrap_invariant_lets (peel_body O name body st).2.1.reverse
      (iters_loop O name min extent b use_guard (iteration_count e_value) .undef), st1)
  | .error err => .error err

/-! ## Paths from the root of a tree to a statement inside it -/

/-- One step from a statement to one of its children; the other fields of the
node are kept. -/
inductive Frame where
  | let_body (name : String) (value : Expr)
  | for_body (name : String) (min extent : Expr) (for_type : ForType) (device_api : DeviceAPI)
  | block_first (rest : Stmt)
  | block_rest (first : Stmt)
  | then_case (condition : Expr) (else_case : Stmt)
  | else_case (condition : Expr) (then_case : Stmt)

/-- The node of a frame with the given statement as the child stepped into. -/
def Frame.fill : Frame → Stmt → Stmt
  | .let_body n v, s => .LetStmt n v s
  | .for_body n m e t d, s => .For n m e t d s
  | .block_first r, s => .Block s r
  | .block_rest f, s => .Block f s
  | .then_case c e, s => .IfThenElse c s e
  | .else_case c t, s => .IfThenElse c t s

/-- The tree that has the statement `s` at the end of the path, the first frame
being the root. -/
def plug : List Frame → Stmt → Stmt
  | [], s => s
  | f :: rest, s => f.fill (plug rest s)

/-- The binding statements with pure values on a path, as (name, value) pairs,
outermost first. -/
def enclosing_pure_lets (O : Oracles) : List Frame → List (String × Expr)
  | [] => []
  | .let_body n v :: rest =>
    (if O.is_pure v then [(n, v)] else []) ++ enclosing_pure_lets O rest
  | .for_body _ _ _ _ _ :: rest => enclosing_pure_lets O rest
  | .block_first _ :: rest => enclosing_pure_lets O rest
  | .block_rest _ :: rest => enclosing_pure_lets O rest
  | .then_case _ _ :: rest => enclosing_pure_lets O rest
  | .else_case _ _ :: rest => enclosing_pure_lets O rest

/-- A path with an impure binding, a pure binding, a serial loop and a second
pure binding, in this order from the root. -/
def example_path : List Frame :=
  [.let_body "a" (.Call "rand" (.IntImm 0)), .let_body "n" (.IntImm 4),
    .for_body "y" (.IntImm 0) (.Variable "h") .Serial .None,
    .block_rest (.LetStmt "z" (.IntImm 9) (.Evaluate (.IntImm 0))),
    .let_body "m" (.Add (.Variable "n") (.IntImm 1))]

/-- A loop `v` whose extent is the variable `m`, body `out[v] = v`. -/
def loop_over_m : Stmt :=
  .For "v" (.IntImm 0) (.Variable "m") .Unrolled .None
    (store_to "out" (.Variable "v") (.Variable "v"))

/-- Whether a variable occurs free in an expression. -/
def free_in (name : String) : Expr → Bool
  | .IntImm _ => false
  | .Variable n => decide (n = name)
  | .Add a b => free_in name a || free_in name b
  | .Mul a b => free_in name a || free_in name b
  | .Min a b => free_in name a || free_in name b
  | .LT a b => free_in name a || free_in name b
  | .Let n v b => free_in name v || (!decide (n = name) && free_in name b)
  | .Select c t f => free_in name c || free_in name t || free_in name f
  | .Load _ i => free_in name i
  | .Call _ a => free_in name a

/-- Whether a statement is well formed: no undefined statement occurs in it,
except as the absent else-branch of a conditional. -/
def well_formed : Stmt → Bool
  | .undef => false
  | .LetStmt _ _ b => well_formed b
  | .For _ _ _ _ _ b => well_formed b
  | .Store _ _ _ _ _ _ => true
  | .Block f r => well_formed f && well_formed r
  | .IfThenElse _ t e => well_formed t && (!e.defined || well_formed e)
  | .Evaluate _ => true

/-- Loop `v` over `[0, 0)` with body `let k = C in out[v] = k`. -/
def empty_loop : Stmt :=
  .For "v" (.IntImm 0) (.IntImm 0) .Unrolled .None
    (.LetStmt "k" (.Variable "C") (store_to "out" (.Variable "v") (.Variable "k")))

/-- Loop `w` over `[0, 1)` whose body is the loop `v` over `[0, 0)` with body
`out[v] = v`. -/
def loop_around_empty : Stmt :=
  .For "w" (.IntImm 0) (.IntImm 1) .Unrolled .None
    (.For "v" (.IntImm 0) (.IntImm 0) .Unrolled .None
      (store_to "out" (.Variable "v") (.Variable "v")))

/-! # Theorems -/

/-! ## No unrolled loop survives -/

theorem contains_unrolled_rewrap_outer (ls : List ContainingLet) (s : Stmt) :
    contains_unrolled (rewrap_outer_lets ls s) = contains_unrolled s := by
  induction ls generalizing s with
  | nil => rfl
  | cons it rest ih =>
    unfold rewrap_outer_lets
    split
    · exact ih s
    · split
      · rw [ih]; rfl
      · exact ih s

theorem contains_unrolled_wrap_invariant (ls : List ContainingLet) (s : Stmt) :
    contains_unrolled (wrap_invariant_lets ls s) = contains_unrolled s := by
  induction ls generalizing s with
  | nil => rfl
  | cons it rest ih =>
    unfold wrap_invariant_lets
    split
    · rw [ih]; rfl
    · exact ih s

theorem contains_unrolled_peel_LetStmts (O : Oracles) (s : Stmt) (ps : PeelState) :
    contains_unrolled (peel_LetStmts O s ps).1 = contains_unrolled s := by
  induction s generalizing ps with
  | LetStmt n v b ih => simp only [peel_LetStmts, contains_unrolled]; exact ih _
  | _ => rfl

theorem contains_unrolled_peel_store (O : Oracles) (s : Stmt) (ps : PeelState) (st : PassState) :
    contains_unrolled (peel_store O s ps st).1 = contains_unrolled s := by
  cases s <;> rfl

theorem contains_unrolled_peel_body (O : Oracles) (name : String) (s : Stmt) (st : PassState) :
    contains_unrolled (peel_body O name s st).1 = contains_unrolled s := by
  simp only [peel_body, contains_unrolled_rewrap_outer, contains_unrolled_peel_store,
    contains_unrolled_peel_LetStmts]

theorem contains_unrolled_iters_step (O : Oracles) (name : String) (min extent : Expr)
    (body : Stmt) (g : Bool) (i : Nat) (acc : Stmt)
    (hcopy : contains_unrolled (copy_at O name min body i) = false)
    (hacc : contains_unrolled acc = false) :
    contains_unrolled (iters_step O name min extent body g i acc) = false := by
  have hcopy2 : contains_unrolled (O.simplify_stmt (O.substitute name (.Add min (.IntImm i)) body))
      = false := hcopy
  unfold iters_step
  cases g <;> cases hd : acc.defined <;> simp [contains_unrolled, hcopy2, hacc]

theorem contains_unrolled_iters_loop (O : Oracles) (name : String) (min extent : Expr)
    (body : Stmt) (g : Bool) (k : Nat) (acc : Stmt)
    (hcopy : ∀ i, contains_unrolled (copy_at O name min body i) = false)
    (hacc : contains_unrolled acc = false) :
    contains_unrolled (iters_loop O name min extent body g k acc) = false := by
  induction k generalizing acc with
  | zero => exact hacc
  | succ k ih =>
    unfold iters_loop
    exact ih _ (contains_unrolled_iters_step O name min extent body g k acc (hcopy k) hacc)

theorem contains_unrolled_unroll_body (O : Oracles)
    (hsimp : ∀ s, contains_unrolled s = false → contains_unrolled (O.simplify_stmt s) = false)
    (hsub : ∀ n e s, contains_unrolled s = false → contains_unrolled (O.substitute n e s) = false)
    (name : String) (min extent : Expr) (ev : Int) (g : Bool) (body : Stmt) (st : PassState)
    (hb : contains_unrolled body = false) :
    contains_unrolled (unroll_body O name min extent ev g body st).1 = false := by
  simp only [unroll_body, contains_unrolled_wrap_invariant]
  apply contains_unrolled_iters_loop
  · intro i
    apply hsimp
    apply hsub
    rw [contains_unrolled_peel_body]; exact hb
  · rfl

theorem mutate_no_unrolled (O : Oracles) (permit : Bool)
    (hsimp : ∀ s, contains_unrolled s = false → contains_unrolled (O.simplify_stmt s) = false)
    (hsub : ∀ n e s, contains_unrolled s = false → contains_unrolled (O.substitute n e s) = false)
    (s : Stmt) : ∀ (lets : List (String × Expr)) (st : PassState) (r : Stmt × PassState),
      mutate O permit s lets st = .ok r → contains_unrolled r.1 = false := by
  induction s with
  | undef => intro lets st r h; simp only [mutate] at h; cases h; rfl
  | LetStmt n v b ih =>
    intro lets st r h
    simp only [mutate] at h
    split at h
    · next b1 st1 hb => cases h; exact ih _ _ (b1, st1) hb
    · cases h
  | For n m e t d b ih =>
    intro lets st r h
    by_cases hne : t = ForType.Unrolled
    · simp only [mutate, hne, if_true] at h
      split at h
      · split at h
        · split at h
          · next b1 st1 hb =>
            cases h
            simp only [contains_unrolled]
            rw [ih _ _ _ hb]; rfl
          · cases h
        · cases h
      · split at h
        · next b1 st1 hb =>
          cases h
          exact contains_unrolled_unroll_body O hsimp hsub _ _ _ _ _ _ _ (ih _ _ _ hb)
        · cases h
    · simp only [mutate, hne, if_false] at h
      split at h
      · next b1 st1 hb =>
        cases h
        simp only [contains_unrolled]
        rw [ih _ _ _ hb]; simp [hne]
      · cases h
  | Store n v i p pr a => intro lets st r h; simp only [mutate] at h; cases h; rfl
  | Block f r ihf ihr =>
    intro lets st res h
    simp only [mutate] at h
    split at h
    · next f1 st1 hf =>
      split at h
      · next r1 st2 hr =>
        cases h
        simp only [contains_unrolled]
        rw [ihf _ _ _ hf, ihr _ _ _ hr]; rfl
      · cases h
    · cases h
  | IfThenElse c t e iht ihe =>
    intro lets st res h
    simp only [mutate] at h
    split at h
    · next t1 st1 ht =>
      split at h
      · next e1 st2 he =>
        cases h
        simp only [contains_unrolled]
        rw [iht _ _ _ ht, ihe _ _ _ he]; rfl
      · cases h
    · cases h
  | Evaluate v => intro lets st r h; simp only [mutate] at h; cases h; rfl
theorem mutate_id_of_no_unrolled (O : Oracles) (permit : Bool) (s : Stmt) :
    ∀ (lets : List (String × Expr)) (st : PassState),
      contains_unrolled s = false → mutate O permit s lets st = .ok (s, st) := by
  induction s with
  | undef => intro lets st _; rfl
  | LetStmt n v b ih =>
    intro lets st h
    simp only [contains_unrolled] at h
    simp only [mutate, ih _ _ h]
  | For n m e t d b ih =>
    intro lets st h
    simp only [contains_unrolled, Bool.or_eq_false_iff, decide_eq_false_iff_not] at h
    simp only [mutate, h.1, if_false, ih _ _ h.2]
  | Store n v i p pr a => intro lets st _; rfl
  | Block f r ihf ihr =>
    intro lets st h
    simp only [contains_unrolled, Bool.or_eq_false_iff] at h
    simp only [mutate, ihf _ _ h.1, ihr _ _ h.2]
  | IfThenElse c t e iht ihe =>
    intro lets st h
    simp only [contains_unrolled, Bool.or_eq_false_iff] at h
    simp only [mutate, iht _ _ h.1, ihe _ _ h.2]
  | Evaluate v => intro lets st _; rfl

theorem contains_unrolled_ref_simplify_stmt (s : Stmt) :
    contains_unrolled (ref_simplify_stmt s) = contains_unrolled s := by
  induction s with
  | undef => rfl
  | LetStmt n v b ih => simpa only [ref_simplify_stmt, contains_unrolled] using ih
  | For n m e t d b ih => simp only [ref_simplify_stmt, contains_unrolled, ih]
  | Store n v i p pr a => rfl
  | Block f r ihf ihr => simp only [ref_simplify_stmt, contains_unrolled, ihf, ihr]
  | IfThenElse c t e iht ihe => simp only [ref_simplify_stmt, contains_unrolled, iht, ihe]
  | Evaluate v => rfl

theorem contains_unrolled_ref_substitute (name : String) (x : Expr) (s : Stmt) :
    contains_unrolled (ref_substitute name x s) = contains_unrolled s := by
  induction s with
  | undef => rfl
  | LetStmt n v b ih =>
    simp only [ref_substitute, contains_unrolled]
    split
    · rfl
    · exact ih
  | For n m e t d b ih =>
    simp only [ref_substitute, contains_unrolled]
    split
    · rfl
    · rw [ih]
  | Store n v i p pr a => rfl
  | Block f r ihf ihr => simp only [ref_substitute, contains_unrolled, ihf, ihr]
  | IfThenElse c t e iht ihe => simp only [ref_substitute, contains_unrolled, iht, ihe]
  | Evaluate v => rfl

theorem ref_simplify_stmt_keeps_tags (s : Stmt) (h : contains_unrolled s = false) :
    contains_unrolled (ref_oracles.simplify_stmt s) = false := by
  show contains_unrolled (ref_simplify_stmt s) = false
  rw [contains_unrolled_ref_simplify_stmt]; exact h

theorem ref_substitute_keeps_tags (n : String) (e : Expr) (s : Stmt)
    (h : contains_unrolled s = false) :
    contains_unrolled (ref_oracles.substitute n e s) = false := by
  show contains_unrolled (ref_substitute n e s) = false
  rw [contains_unrolled_ref_substitute]; exact h

/-! ## The permissive override never fails; diagnostics only grow -/

theorem mutate_permit_total (O : Oracles) (s : Stmt) :
    ∀ (lets : List (String × Expr)) (st : PassState),
      ∃ r, mutate O true s lets st = .ok r := by
  induction s with
  | undef => intro lets st; exact ⟨_, rfl⟩
  | LetStmt n v b ih =>
    intro lets st
    obtain ⟨⟨b1, st1⟩, hb⟩ := ih (if O.is_pure v then lets ++ [(n, v)] else lets) st
    exact ⟨_, by simp only [mutate, hb]; rfl⟩
  | For n m e t d b ih =>
    intro lets st
    by_cases hne : t = ForType.Unrolled
    · cases hr : (resolve O lets e).e with
      | none =>
        obtain ⟨⟨b1, st1⟩, hb⟩ := ih lets (st.warn permit_warning)
        exact ⟨_, by simp only [mutate, hne, if_true, hr, hb]; rfl⟩
      | some ev =>
        obtain ⟨⟨b1, st1⟩, hb⟩ := ih lets st
        exact ⟨_, by simp only [mutate, hne, if_true, hr, hb]; rfl⟩
    · obtain ⟨⟨b1, st1⟩, hb⟩ := ih lets st
      exact ⟨_, by simp only [mutate, hne, if_false, hb]; rfl⟩
  | Store n v i p pr a => intro lets st; exact ⟨_, rfl⟩
  | Block f r ihf ihr =>
    intro lets st
    obtain ⟨⟨f1, st1⟩, hf⟩ := ihf lets st
    obtain ⟨⟨r1, st2⟩, hr⟩ := ihr lets st1
    exact ⟨_, by simp only [mutate, hf, hr]; rfl⟩
  | IfThenElse c t e iht ihe =>
    intro lets st
    obtain ⟨⟨t1, st1⟩, ht⟩ := iht lets st
    obtain ⟨⟨e1, st2⟩, he⟩ := ihe lets st1
    exact ⟨_, by simp only [mutate, ht, he]; rfl⟩
  | Evaluate v => intro lets st; exact ⟨_, rfl⟩

theorem peel_store_warnings (O : Oracles) (s : Stmt) (ps : PeelState) (st : PassState) :
    (peel_store O s ps st).2.2.warnings = st.warnings := by
  cases s <;> rfl

theorem unroll_body_warnings (O : Oracles) (name : String) (min extent : Expr) (ev : Int)
    (g : Bool) (body : Stmt) (st : PassState) :
    (unroll_body O name min extent ev g body st).2.warnings = st.warnings := by
  simp only [unroll_body, peel_body, peel_store_warnings]

theorem mutate_warnings_grow (O : Oracles) (permit : Bool) (s : Stmt) :
    ∀ (lets : List (String × Expr)) (st : PassState) (r : Stmt × PassState),
      mutate O permit s lets st = .ok r → st.warnings <+: r.2.warnings := by
  induction s with
  | undef => intro lets st r h; simp only [mutate] at h; cases h; exact List.prefix_refl _
  | LetStmt n v b ih =>
    intro lets st r h
    simp only [mutate] at h
    split at h
    · next b1 st1 hb => cases h; exact ih _ _ (b1, st1) hb
    · cases h
  | For n m e t d b ih =>
    intro lets st r h
    by_cases hne : t = ForType.Unrolled
    · simp only [mutate, hne, if_true] at h
      split at h
      · split at h
        · split at h
          · next b1 st1 hb =>
            cases h
            exact (List.prefix_append _ _).trans (ih _ _ (b1, st1) hb)
          · cases h
        · cases h
      · split at h
        · next b1 st1 hb =>
          cases h
          rw [unroll_body_warnings]
          have h1 := ih _ _ (b1, st1) hb
          split
          · exact h1.trans (List.prefix_append _ _)
          · exact h1
        · cases h
    · simp only [mutate, hne, if_false] at h
      split at h
      · next b1 st1 hb => cases h; exact ih _ _ (b1, st1) hb
      · cases h
  | Store n v i p pr a => intro lets st r h; simp only [mutate] at h; cases h; exact List.prefix_refl _
  | Block f r ihf ihr =>
    intro lets st res h
    simp only [mutate] at h
    split at h
    · next f1 st1 hf =>
      split at h
      · next r1 st2 hr =>
        cases h
        exact (ihf _ _ (f1, st1) hf).trans (ihr _ _ (r1, st2) hr)
      · cases h
    · cases h
  | IfThenElse c t e iht ihe =>
    intro lets st res h
    simp only [mutate] at h
    split at h
    · next t1 st1 ht =>
      split at h
      · next e1 st2 he =>
        cases h
        exact (iht _ _ (t1, st1) ht).trans (ihe _ _ (e1, st2) he)
      · cases h
    · cases h
  | Evaluate v => intro lets st r h; simp only [mutate] at h; cases h; exact List.prefix_refl _
/-! ## Failure of the pass -/

theorem wrap_lets_eq_foldr (lets : List (String × Expr)) (extent : Expr) :
    wrap_lets lets extent = lets.foldr (fun p acc => Expr.Let p.1 p.2 acc) extent := by
  simp only [wrap_lets, List.foldl_reverse]

theorem resolve_e_none_iff (O : Oracles) (lets : List (String × Expr)) (extent : Expr) :
    (resolve O lets extent).e = none ↔ all_steps_fail O lets extent = true := by
  simp only [resolve, resolve_exact, all_steps_fail, inlined_extent, wrap_lets_eq_foldr]
  cases h1 : as_IntImm (O.simplify extent) with
  | some v => simp
  | none =>
    simp only []
    cases h2 : as_IntImm (O.simplify (O.substitute_in_all_lets (O.remove_likelies
      (lets.foldr (fun p acc => Expr.Let p.1 p.2 acc) (O.simplify extent))))) with
    | some v => simp
    | none =>
      simp only []
      cases h3 : O.find_constant_bound (O.simplify (O.substitute_in_all_lets (O.remove_likelies
        (lets.foldr (fun p acc => Expr.Let p.1 p.2 acc) (O.simplify extent))))) with
      | some up => simp
      | none => simp

theorem resolve_extent_of_none (O : Oracles) (lets : List (String × Expr)) (extent : Expr)
    (h : (resolve O lets extent).e = none) :
    (resolve O lets extent).extent = inlined_extent O lets extent := by
  simp only [resolve, resolve_exact, inlined_extent, wrap_lets_eq_foldr] at h ⊢
  cases h1 : as_IntImm (O.simplify extent) with
  | some v => simp [h1] at h
  | none =>
    simp only [h1] at h ⊢
    cases h2 : as_IntImm (O.simplify (O.substitute_in_all_lets (O.remove_likelies
      (lets.foldr (fun p acc => Expr.Let p.1 p.2 acc) (O.simplify extent))))) with
    | some v => simp [h2] at h
    | none =>
      simp only []
      cases h3 : O.find_constant_bound (O.simplify (O.substitute_in_all_lets (O.remove_likelies
        (lets.foldr (fun p acc => Expr.Let p.1 p.2 acc) (O.simplify extent))))) with
      | some up => rfl
      | none => rfl

/-- What the strict walker returns: the first unresolved loop as the error, or
success when there is none. -/
theorem mutate_strict_spec (O : Oracles) (s : Stmt) :
    ∀ (lets : List (String × Expr)) (st : PassState),
      (unresolved_loops O s lets = [] ∧ ∃ r, mutate O false s lets st = .ok r) ∨
      (∃ err rest, unresolved_loops O s lets = err :: rest ∧
        mutate O false s lets st = .error err) := by
  induction s with
  | undef => intro lets st; exact Or.inl ⟨rfl, _, rfl⟩
  | LetStmt n v b ih =>
    intro lets st
    rcases ih (if O.is_pure v then lets ++ [(n, v)] else lets) st with
      ⟨h0, ⟨b1, st1⟩, hb⟩ | ⟨err, rest, h0, hb⟩
    · exact Or.inl ⟨by simp only [unresolved_loops, h0], _, by simp only [mutate, hb]; rfl⟩
    · exact Or.inr ⟨err, rest, by simp only [unresolved_loops, h0], by simp only [mutate, hb]⟩
  | For n m e t d b ih =>
    intro lets st
    by_cases hne : t = ForType.Unrolled
    · cases hr : (resolve O lets e).e with
      | none =>
        have hf : all_steps_fail O lets e = true := (resolve_e_none_iff O lets e).1 hr
        refine Or.inr ⟨⟨n, inlined_extent O lets e⟩, unresolved_loops O b lets, ?_, ?_⟩
        · simp only [unresolved_loops, hne, hf, and_self, if_true, List.singleton_append]
        · simp only [mutate, hne, if_true, hr, Bool.false_eq_true, if_false,
            resolve_extent_of_none O lets e hr]
      | some ev =>
        have hf : ¬ all_steps_fail O lets e = true := by
          intro hc
          rw [(resolve_e_none_iff O lets e).2 hc] at hr
          cases hr
        rcases ih lets st with ⟨h0, ⟨b1, st1⟩, hb⟩ | ⟨err, rest, h0, hb⟩
        · exact Or.inl ⟨by simp [unresolved_loops, hf, h0], _,
            by simp only [mutate, hne, if_true, hr, hb]; rfl⟩
        · exact Or.inr ⟨err, rest, by simp [unresolved_loops, hf, h0],
            by simp only [mutate, hne, if_true, hr, hb]⟩
    · rcases ih lets st with ⟨h0, ⟨b1, st1⟩, hb⟩ | ⟨err, rest, h0, hb⟩
      · exact Or.inl ⟨by simp [unresolved_loops, hne, h0], _,
          by simp only [mutate, hne, if_false, hb]; rfl⟩
      · exact Or.inr ⟨err, rest, by simp [unresolved_loops, hne, h0],
          by simp only [mutate, hne, if_false, hb]⟩
  | Store n v i p pr a => intro lets st; exact Or.inl ⟨rfl, _, rfl⟩
  | Block f r ihf ihr =>
    intro lets st
    rcases ihf lets st with ⟨h0, ⟨f1, st1⟩, hf⟩ | ⟨err, rest, h0, hf⟩
    · rcases ihr lets st1 with ⟨h1, ⟨r1, st2⟩, hr⟩ | ⟨err, rest, h1, hr⟩
      · exact Or.inl ⟨by simp only [unresolved_loops, h0, h1, List.append_nil], _,
          by simp only [mutate, hf, hr]; rfl⟩
      · exact Or.inr ⟨err, rest, by simp only [unresolved_loops, h0, h1, List.nil_append],
          by simp only [mutate, hf, hr]⟩
    · exact Or.inr ⟨err, rest ++ unresolved_loops O r lets,
        by simp only [unresolved_loops, h0, List.cons_append], by simp only [mutate, hf]⟩
  | IfThenElse c t e iht ihe =>
    intro lets st
    rcases iht lets st with ⟨h0, ⟨t1, st1⟩, ht⟩ | ⟨err, rest, h0, ht⟩
    · rcases ihe lets st1 with ⟨h1, ⟨e1, st2⟩, he⟩ | ⟨err, rest, h1, he⟩
      · exact Or.inl ⟨by simp only [unresolved_loops, h0, h1, List.append_nil], _,
          by simp only [mutate, ht, he]; rfl⟩
      · exact Or.inr ⟨err, rest, by simp only [unresolved_loops, h0, h1, List.nil_append],
          by simp only [mutate, ht, he]⟩
    · exact Or.inr ⟨err, rest ++ unresolved_loops O e lets,
        by simp only [unresolved_loops, h0, List.cons_append], by simp only [mutate, ht]⟩
  | Evaluate v => intro lets st; exact Or.inl ⟨rfl, _, rfl⟩
/-! ## The peeler meets its specification -/

theorem classify_append (O : Oracles) (vs : List String) (a b : List RawLet) :
    classify O vs (a ++ b) = classify O vs a ++ classify O (classify_scope O vs a) b := by
  induction a generalizing vs with
  | nil => rfl
  | cons r rest ih =>
    rw [List.cons_append]
    simp only [classify, classify_scope, ih, List.cons_append]

theorem classify_scope_append (O : Oracles) (vs : List String) (a b : List RawLet) :
    classify_scope O vs (a ++ b) = classify_scope O (classify_scope O vs a) b := by
  induction a generalizing vs with
  | nil => rfl
  | cons r rest ih =>
    rw [List.cons_append]
    simp only [classify_scope, ih]

theorem classify_from_store (O : Oracles) (vs : List String) (a : List RawLet) :
    ∀ l ∈ classify O vs a, ∃ r ∈ a, l.from_store = r.from_store := by
  induction a generalizing vs with
  | nil => intro l hl; simp [classify] at hl
  | cons r rest ih =>
    intro l hl
    simp only [classify, List.mem_cons] at hl
    rcases hl with rfl | hl
    · exact ⟨r, List.mem_cons_self _ _, rfl⟩
    · obtain ⟨r2, hr2, h2⟩ := ih _ l hl
      exact ⟨r2, List.mem_cons_of_mem _ hr2, h2⟩

theorem peel_let_eq (O : Oracles) (ps : PeelState) (n : String) (v : Expr) (fs : Bool) :
    peel_let O ps n v fs =
      ⟨ps.lets ++ classify O ps.varying [⟨n, v, fs⟩], classify_scope O ps.varying [⟨n, v, fs⟩]⟩ := by
  rfl

theorem peel_LetStmts_spec (O : Oracles) (s : Stmt) (ps : PeelState) :
    peel_LetStmts O s ps =
      (strip_LetStmts s, ⟨ps.lets ++ classify O ps.varying (body_bindings s),
        classify_scope O ps.varying (body_bindings s)⟩) := by
  induction s generalizing ps with
  | LetStmt n v b ih =>
    simp only [peel_LetStmts, ih, strip_LetStmts, peel_let_eq, body_bindings, leading_LetStmts,
      List.map_cons, List.append_assoc]
    rw [show (⟨n, v, false⟩ : RawLet) :: List.map (fun p => (⟨p.1, p.2, false⟩ : RawLet))
        (leading_LetStmts b) = [⟨n, v, false⟩] ++ List.map (fun p => (⟨p.1, p.2, false⟩ : RawLet))
        (leading_LetStmts b) from rfl, classify_append, classify_scope_append]
  | _ => simp [peel_LetStmts, strip_LetStmts, body_bindings, leading_LetStmts, classify,
      classify_scope]

theorem peel_Lets_spec (O : Oracles) (e : Expr) (ps : PeelState) :
    peel_Lets O e ps =
      (strip_Lets e, ⟨ps.lets ++ classify O ps.varying
          ((leading_Lets e).map (fun p => ⟨p.1, p.2, true⟩)),
        classify_scope O ps.varying ((leading_Lets e).map (fun p => ⟨p.1, p.2, true⟩))⟩) := by
  induction e generalizing ps with
  | Let n v b _ ih =>
    simp only [peel_Lets, ih, strip_Lets, peel_let_eq, leading_Lets,
      List.map_cons, List.append_assoc]
    rw [show (⟨n, v, true⟩ : RawLet) :: List.map (fun p => (⟨p.1, p.2, true⟩ : RawLet))
        (leading_Lets b) = [⟨n, v, true⟩] ++ List.map (fun p => (⟨p.1, p.2, true⟩ : RawLet))
        (leading_Lets b) from rfl, classify_append, classify_scope_append]
  | _ => simp [peel_Lets, strip_Lets, leading_Lets, classify, classify_scope]
theorem wrap_LetStmts_append (a b : List ContainingLet) (s : Stmt) :
    wrap_LetStmts (a ++ b) s = wrap_LetStmts a (wrap_LetStmts b s) := by
  simp only [wrap_LetStmts, List.foldr_append]

theorem wrap_Lets_append (a b : List ContainingLet) (e : Expr) :
    wrap_Lets (a ++ b) e = wrap_Lets a (wrap_Lets b e) := by
  simp only [wrap_Lets, List.foldr_append]

theorem rewrap_outer_lets_spec (ls : List ContainingLet) (body : Stmt) :
    rewrap_outer_lets ls body =
      wrap_LetStmts (ls.filter (fun l => !l.from_store && l.varying)).reverse body := by
  induction ls generalizing body with
  | nil => rfl
  | cons it rest ih =>
    unfold rewrap_outer_lets
    cases hfs : it.from_store <;> cases hv : it.varying <;>
      simp [ih, List.filter_cons, hfs, hv, wrap_LetStmts_append, wrap_LetStmts]

theorem wrap_invariant_lets_spec (ls : List ContainingLet) (iters : Stmt) :
    wrap_invariant_lets ls iters =
      wrap_LetStmts (ls.filter (fun l => !l.varying)).reverse iters := by
  induction ls generalizing iters with
  | nil => rfl
  | cons it rest ih =>
    unfold wrap_invariant_lets
    cases hv : it.varying <;>
      simp [ih, List.filter_cons, hv, wrap_LetStmts_append, wrap_LetStmts]

theorem rewrap_store_lets_of_outer (ls : List ContainingLet) (e : Expr)
    (h : ∀ l ∈ ls, l.from_store = false) : rewrap_store_lets ls e = e := by
  cases ls with
  | nil => rfl
  | cons it rest =>
    have := h it (List.mem_cons_self _ _)
    simp [rewrap_store_lets, this]

theorem rewrap_store_lets_append (ss ls : List ContainingLet) (e : Expr)
    (h : ∀ l ∈ ss, l.from_store = true) :
    rewrap_store_lets (ss ++ ls) e =
      rewrap_store_lets ls (wrap_Lets (ss.filter (fun l => l.varying)).reverse e) := by
  induction ss generalizing e with
  | nil => rfl
  | cons it rest ih =>
    have h1 := h it (List.mem_cons_self _ _)
    have h2 : ∀ l ∈ rest, l.from_store = true := fun l hl => h l (List.mem_cons_of_mem _ hl)
    rw [List.cons_append]
    cases hv : it.varying <;>
      simp only [rewrap_store_lets, h1, if_true, hv, ih _ h2, List.filter_cons,
        List.reverse_cons, wrap_Lets_append, Bool.false_eq_true, if_false]
    rfl

theorem classify_body_bindings_outer (O : Oracles) (vs : List String) (s : Stmt) :
    ∀ l ∈ classify O vs (body_bindings s), l.from_store = false := by
  intro l hl
  obtain ⟨r, hr, h⟩ := classify_from_store O vs _ l hl
  simp only [body_bindings, List.mem_map] at hr
  obtain ⟨p, _, rfl⟩ := hr
  exact h

theorem classify_store_bindings_inner (O : Oracles) (vs : List String) (st : PassState)
    (s : Stmt) : ∀ l ∈ classify O vs (store_bindings O st s), l.from_store = true := by
  intro l hl
  obtain ⟨r, hr, h⟩ := classify_from_store O vs _ l hl
  cases s <;> simp only [store_bindings, List.mem_append, List.mem_map, List.mem_singleton,
    List.not_mem_nil] at hr
  rcases hr with ⟨p, _, rfl⟩ | rfl <;> exact h

theorem filter_eq_nil_of_outer (ls : List ContainingLet)
    (h : ∀ l ∈ ls, l.from_store = false) :
    ls.filter (fun l => l.from_store && l.varying) = [] := by
  rw [List.filter_eq_nil_iff]
  intro l hl
  simp [h l hl]

theorem filter_inner_eq (ls : List ContainingLet) (h : ∀ l ∈ ls, l.from_store = true) :
    ls.filter (fun l => l.from_store && l.varying) = ls.filter (fun l => l.varying) := by
  apply List.filter_congr
  intro l hl
  simp [h l hl]

theorem filter_outer_of_inner (ls : List ContainingLet) (h : ∀ l ∈ ls, l.from_store = true) :
    ls.filter (fun l => !l.from_store && l.varying) = [] := by
  rw [List.filter_eq_nil_iff]
  intro l hl
  simp [h l hl]

theorem peel_body_lets (O : Oracles) (name : String) (body : Stmt) (st : PassState) :
    (peel_body O name body st).2.1 = peeled_bindings O name body st := by
  simp only [peel_body, peel_LetStmts_spec, peeled_bindings, raw_bindings, classify_append]
  generalize strip_LetStmts body = core
  cases core with
  | Store n v i p pr a =>
    simp only [peel_store, peel_Lets_spec, peel_let_eq, store_bindings, classify_append,
      List.nil_append, List.append_assoc]
  | _ => simp [peel_store, store_bindings, classify]

theorem peel_body_stmt (O : Oracles) (name : String) (body : Stmt) (st : PassState) :
    (peel_body O name body st).1 = specialised_body O name body st := by
  have hl := peel_body_lets O name body st
  simp only [peel_body] at hl
  simp only [peel_body, specialised_body, rewrap_outer_lets_spec, hl, List.filter_reverse,
    List.reverse_reverse]
  congr 1
  simp only [peel_LetStmts_spec]
  have hp : peeled_bindings O name body st =
      classify O [name] (body_bindings body) ++
        classify O (classify_scope O [name] (body_bindings body))
          (store_bindings O st (strip_LetStmts body)) := by
    simp only [peeled_bindings, raw_bindings, classify_append]
  generalize hcore : strip_LetStmts body = core at hp ⊢
  cases core with
  | Store n v i p pr a =>
    simp only [peel_store, rebuilt_core, peel_Lets_spec, peel_let_eq, List.nil_append]
    congr 1
    rw [hp, List.filter_append,
      filter_eq_nil_of_outer _ (classify_body_bindings_outer O [name] body),
      filter_inner_eq _ (classify_store_bindings_inner O _ st _), List.nil_append]
    have hs : classify O (classify_scope O [name] (body_bindings body))
        (store_bindings O st (.Store n v i p pr a)) =
        classify O (classify_scope O [name] (body_bindings body))
          (List.map (fun p => (⟨p.1, p.2, true⟩ : RawLet)) (leading_Lets v)) ++
        classify O (classify_scope O (classify_scope O [name] (body_bindings body))
          (List.map (fun p => (⟨p.1, p.2, true⟩ : RawLet)) (leading_Lets v)))
          [⟨O.unique_name 't' st.counter, strip_Lets v, true⟩] := by
      simp only [store_bindings, classify_append]
    rw [List.append_assoc, List.reverse_append, ← hs,
      rewrap_store_lets_append _ _ _ (fun l hl => classify_store_bindings_inner O _ st _ l
        (List.mem_reverse.1 hl)),
      rewrap_store_lets_of_outer _ _ (fun l hl => classify_body_bindings_outer O [name] body l
        (List.mem_reverse.1 hl)), List.filter_reverse, List.reverse_reverse]
  | _ => simp [peel_store, rebuilt_core]

theorem unroll_body_spec (O : Oracles) (name : String) (min extent : Expr) (ev : Int)
    (g : Bool) (body : Stmt) (st : PassState) :
    (unroll_body O name min extent ev g body st).1 =
      wrap_LetStmts (hoisted_bindings O name body st)
        (iters_loop O name min extent (specialised_body O name body st) g
          (iteration_count ev) .undef) := by
  simp only [unroll_body, wrap_invariant_lets_spec, peel_body_lets, peel_body_stmt,
    hoisted_bindings, List.filter_reverse, List.reverse_reverse]
/-! ## The specialisation loop -/

theorem iteration_count_of_range (n : Int) (h0 : 0 ≤ n) (h1 : n ≤ 2 ^ 31) :
    iteration_count n = n.toNat := by
  unfold iteration_count to_int32
  rcases lt_or_ge 0 n with hpos | hle
  · have h2 : (n - 1 + 2 ^ 31) % 2 ^ 32 = n - 1 + 2 ^ 31 :=
      Int.emod_eq_of_lt (by omega) (by omega)
    rw [h2]
    congr 1
    omega
  · have hn : n = 0 := by omega
    subst hn
    rfl

theorem iteration_count_of_nonpos (n : Int) (h0 : n ≤ 0) (h1 : -(2 ^ 31) < n) :
    iteration_count n = 0 := by
  unfold iteration_count to_int32
  have h2 : (n - 1 + 2 ^ 31) % 2 ^ 32 = n - 1 + 2 ^ 31 :=
    Int.emod_eq_of_lt (by omega) (by omega)
  rw [h2]
  omega

theorem block_chain_defined (c d : Stmt) (rest : List Stmt) :
    (block_chain (c :: d :: rest)).defined = true := rfl

theorem guard_nest_defined (O : Oracles) (name : String) (min extent : Expr) (body : Stmt)
    (i r : Nat) : (guard_nest O name min extent body i (r + 1)).defined = true := by
  cases r <;> rfl

theorem iters_step_guarded (O : Oracles) (name : String) (min extent : Expr) (body : Stmt)
    (k r : Nat) :
    iters_step O name min extent body true k (guard_nest O name min extent body (k + 1) r) =
      guard_nest O name min extent body k (r + 1) := by
  cases r with
  | zero => rfl
  | succ r =>
    simp only [iters_step, guard_nest_defined, Bool.not_true, Bool.false_eq_true, if_false,
      if_true, guard_nest, copy_at]

theorem iters_loop_guarded_acc (O : Oracles) (name : String) (min extent : Expr) (body : Stmt)
    (k r : Nat) :
    iters_loop O name min extent body true k (guard_nest O name min extent body k r) =
      guard_nest O name min extent body 0 (k + r) := by
  induction k generalizing r with
  | zero => simp only [iters_loop, Nat.zero_add]
  | succ k ih =>
    simp only [iters_loop, iters_step_guarded, ih]
    congr 1
    omega

theorem iters_loop_guarded (O : Oracles) (name : String) (min extent : Expr) (body : Stmt)
    (k : Nat) :
    iters_loop O name min extent body true k .undef =
      guard_nest O name min extent body 0 k := by
  have h := iters_loop_guarded_acc O name min extent body k 0
  rw [show guard_nest O name min extent body k 0 = .undef from by cases k <;> rfl] at h
  exact h

theorem block_chain_range_defined (O : Oracles) (name : String) (min : Expr) (body : Stmt)
    (k r : Nat) (hd : (copy_at O name min body (k + r)).defined = true) :
    (block_chain ((List.range' k (r + 1)).map (copy_at O name min body))).defined = true := by
  cases r with
  | zero => simpa [List.range', block_chain] using hd
  | succ r => simp [List.range', block_chain, Stmt.defined]

theorem iters_loop_exact_acc (O : Oracles) (name : String) (min extent : Expr) (body : Stmt)
    (k r : Nat) (hd : (copy_at O name min body (k + r)).defined = true) :
    iters_loop O name min extent body false k
        (block_chain ((List.range' k (r + 1)).map (copy_at O name min body))) =
      block_chain ((List.range' 0 (k + r + 1)).map (copy_at O name min body)) := by
  induction k generalizing r with
  | zero => simp only [iters_loop, Nat.zero_add]
  | succ k ih =>
    have hd2 : (copy_at O name min body (k + (r + 1))).defined = true := by
      rw [show k + (r + 1) = k + 1 + r from by omega]; exact hd
    have hacc := block_chain_range_defined O name min body (k + 1) r hd
    have hstep : iters_step O name min extent body false k
        (block_chain ((List.range' (k + 1) (r + 1)).map (copy_at O name min body))) =
        block_chain ((List.range' k (r + 1 + 1)).map (copy_at O name min body)) := by
      simp only [iters_step, hacc, Bool.not_true, Bool.false_eq_true, if_false]
      rw [show List.range' k (r + 1 + 1) = k :: List.range' (k + 1) (r + 1) from rfl]
      rw [show List.range' (k + 1) (r + 1) = (k + 1) :: List.range' (k + 1 + 1) r from rfl]
      rfl
    simp only [iters_loop, hstep]
    rw [ih (r + 1) hd2]
    rw [show k + (r + 1) + 1 = k + 1 + r + 1 from by omega]

theorem iters_loop_exact (O : Oracles) (name : String) (min extent : Expr) (body : Stmt)
    (k : Nat) (hd : 0 < k → (copy_at O name min body (k - 1)).defined = true) :
    iters_loop O name min extent body false k .undef =
      block_chain ((List.range k).map (copy_at O name min body)) := by
  cases k with
  | zero => rfl
  | succ k =>
    have hd2 : (copy_at O name min body (k + 0)).defined = true := hd (Nat.succ_pos k)
    have h := iters_loop_exact_acc O name min extent body k 0 hd2
    rw [List.range_eq_range']
    rw [← h]
    rfl
/-! ## Claims -/

/-- C1. Semantic equivalence fails on the code for the loop `r` over `[0, 2)`
with body `f[0] = f[0] + 1`: the pass binds the store value `f[0] + 1` once,
outside the two copies, so the returned statement stores 1 twice, while running
the body for `r = 0, 1` stores 1 and then 2.  On this loop the simplifier and
the substitution used are semantics-preserving. -/
theorem accumulate_loop_trace_differs :
    unroll_loops ref_oracles false accumulate_loop st0 = .ok (accumulate_unrolled, ⟨[], 1⟩) ∧
    trace accumulate_unrolled env0 mem0 = some [⟨"f", 0, 1⟩, ⟨"f", 0, 1⟩] ∧
    iterate_body "r" accumulate_body env0 (eval env0 mem0 (.IntImm 0)) 2 mem0 =
      some [⟨"f", 0, 1⟩, ⟨"f", 0, 2⟩] ∧
    trace accumulate_unrolled env0 mem0 ≠
      iterate_body "r" accumulate_body env0 (eval env0 mem0 (.IntImm 0)) 2 mem0 ∧
    (∀ (i : Nat) (env : Env) (mem : Mem),
      exec (copy_at ref_oracles "r" (.IntImm 0)
          (specialised_body ref_oracles "r" accumulate_body st0) i) env mem =
        exec (specialised_body ref_oracles "r" accumulate_body st0)
          (env.bind "r" (eval env mem (.Add (.IntImm 0) (.IntImm i)))) mem) := by
  refine ⟨rfl, by decide, by decide, by decide, ?_⟩
  intro i env mem
  have hb : specialised_body ref_oracles "r" accumulate_body st0 =
      store_to "f" (.IntImm 0) (.Variable "t0") := by rfl
  rw [hb]
  have hc : copy_at ref_oracles "r" (.IntImm 0) (store_to "f" (.IntImm 0) (.Variable "t0")) i =
      store_to "f" (.IntImm 0) (.Variable "t0") := by
    simp [copy_at, ref_oracles, store_to, ref_substitute, ref_substitute_expr,
      ref_simplify_stmt, ref_simplify]
  rw [hc]
  simp [store_to, exec, eval, Env.bind]

/-- C2. The count of copies fails on the code for the 64-bit literal extent
`2 ^ 32`: the 32-bit counter starts at `-1`, the loop of line 155 never runs,
and no copy is emitted whatever the collaborators are. -/
theorem huge_extent_emits_no_copy :
    to_int32 (4294967296 - 1) = -1 ∧
    iteration_count 4294967296 = 0 ∧
    (∀ (O : Oracles) (name : String) (min extent : Expr) (body : Stmt),
      iters_loop O name min extent body false (iteration_count 4294967296) .undef = .undef) ∧
    unroll_loops ref_oracles false huge_loop st0 = .ok (.undef, ⟨[], 1⟩) ∧
    flatten_blocks .undef = [] := by
  refine ⟨by decide, by decide, ?_, rfl, rfl⟩
  intro O name min extent body
  rw [show iteration_count 4294967296 = 0 from by decide]
  rfl

/-- C3. Tag elimination: when the simplifier and the substitution introduce
no `Unrolled` loop, every tree the pass returns, with the permissive override
set or unset, contains no `Unrolled` loop. -/
theorem tag_elimination (O : Oracles) (permit : Bool)
    (hsimp : ∀ s, contains_unrolled s = false → contains_unrolled (O.simplify_stmt s) = false)
    (hsub : ∀ n e s, contains_unrolled s = false → contains_unrolled (O.substitute n e s) = false)
    (s : Stmt) (st : PassState) (out : Stmt) (st1 : PassState)
    (h : unroll_loops O permit s st = .ok (out, st1)) :
    contains_unrolled out = false :=
  mutate_no_unrolled O permit hsimp hsub s [] st (out, st1) h

theorem tag_elimination_witness :
    contains_unrolled mixed_tree = true ∧ contains_unrolled mixed_tree_unrolled = false :=
  ⟨by decide, tag_elimination ref_oracles true ref_simplify_stmt_keeps_tags
    ref_substitute_keeps_tags mixed_tree st0 mixed_tree_unrolled ⟨[permit_warning], 1⟩ rfl⟩

/-- C4. Idempotence: on a tree with no `Unrolled` loop the pass returns the
same tree and leaves the diagnostics unchanged; hence, when the simplifier and
the substitution introduce no `Unrolled` loop, applying the pass to a tree it
returned gives that tree back. -/
theorem unroll_loops_idempotent (O : Oracles) (permit : Bool) :
    (∀ (t : Stmt) (st : PassState), contains_unrolled t = false →
      unroll_loops O permit t st = .ok (t, st)) ∧
    ((∀ s, contains_unrolled s = false → contains_unrolled (O.simplify_stmt s) = false) →
      (∀ n e s, contains_unrolled s = false → contains_unrolled (O.substitute n e s) = false) →
      ∀ (s : Stmt) (st : PassState) (out : Stmt) (st1 : PassState),
        unroll_loops O permit s st = .ok (out, st1) →
        ∀ st2 : PassState, unroll_loops O permit out st2 = .ok (out, st2)) := by
  refine ⟨fun t st ht => mutate_id_of_no_unrolled O permit t [] st ht, ?_⟩
  intro hsimp hsub s st out st1 h st2
  exact mutate_id_of_no_unrolled O permit out [] st2
    (mutate_no_unrolled O permit hsimp hsub s [] st (out, st1) h)

theorem unroll_loops_idempotent_witness :
    unroll_loops ref_oracles true (store_to "out" (.IntImm 0) (.IntImm 1)) st0 =
      .ok (store_to "out" (.IntImm 0) (.IntImm 1), st0) ∧
    unroll_loops ref_oracles true mixed_tree_unrolled ⟨[permit_warning], 1⟩ =
      .ok (mixed_tree_unrolled, ⟨[permit_warning], 1⟩) :=
  ⟨(unroll_loops_idempotent ref_oracles true).1 _ st0 (by decide),
    (unroll_loops_idempotent ref_oracles true).2 ref_simplify_stmt_keeps_tags
      ref_substitute_keeps_tags mixed_tree st0 mixed_tree_unrolled ⟨[permit_warning], 1⟩ rfl _⟩
/-- C7. With the override unset the pass fails exactly when the tree holds an
`Unrolled` loop for which all three resolution steps fail; a failure returns no
tree, and its diagnostic carries the name of the first such loop the walker
meets together with that loop's extent as resolution left it. -/
theorem strict_failure (O : Oracles) (s : Stmt) (st : PassState) :
    ((∃ err, unroll_loops O false s st = .error err) ↔ unresolved_loops O s [] ≠ []) ∧
    (∀ err, unroll_loops O false s st = .error err →
      (unresolved_loops O s []).head? = some err) ∧
    (unresolved_loops O s [] ≠ [] → ∀ r, unroll_loops O false s st ≠ .ok r) := by
  unfold unroll_loops
  rcases mutate_strict_spec O s [] st with ⟨h0, r, hr⟩ | ⟨err, rest, h0, hr⟩
  · refine ⟨⟨?_, fun h => absurd h0 h⟩, ?_, fun h => absurd h0 h⟩
    · rintro ⟨err, he⟩
      rw [hr] at he
      cases he
    · intro err he
      rw [hr] at he
      cases he
  · refine ⟨⟨fun _ => by rw [h0]; exact List.cons_ne_nil _ _, fun _ => ⟨err, hr⟩⟩, ?_, ?_⟩
    · intro err2 he
      rw [hr] at he
      cases he
      rw [h0]
      rfl
    · intro _ r he
      rw [hr] at he
      cases he

/-- C8. Demotion to serial: with the override set, an `Unrolled` loop whose
extent no step resolves becomes a `Serial` loop with the same name, min,
original extent and device tag around the walked body, a warning is recorded
and the pass does not fail; a loop whose extent resolves is unrolled instead. -/
theorem demote_to_serial (O : Oracles) (lets : List (String × Expr)) (st : PassState)
    (name : String) (min extent : Expr) (d : DeviceAPI) (body : Stmt) :
    (all_steps_fail O lets extent = true →
      ∃ b st1, mutate O true body lets (st.warn permit_warning) = .ok (b, st1) ∧
        mutate O true (.For name min extent .Unrolled d body) lets st =
          .ok (.For name min extent .Serial d b, st1) ∧
        permit_warning ∈ st1.warnings) ∧
    (all_steps_fail O lets extent = false →
      ∃ ev b st1, (resolve O lets extent).e = some ev ∧
        mutate O true body lets st = .ok (b, st1) ∧
        mutate O true (.For name min extent .Unrolled d body) lets st =
          .ok (unroll_body O name min extent ev (resolve O lets extent).use_guard b
            (if ev = 1 then st1.warn (extent_one_warning name) else st1))) := by
  constructor
  · intro hf
    have hr : (resolve O lets extent).e = none := (resolve_e_none_iff O lets extent).2 hf
    obtain ⟨⟨b, st1⟩, hb⟩ := mutate_permit_total O body lets (st.warn permit_warning)
    refine ⟨b, st1, hb, by simp only [mutate, if_true, hr, hb], ?_⟩
    have hp := mutate_warnings_grow O true body lets (st.warn permit_warning) (b, st1) hb
    exact hp.subset (by simp [PassState.warn])
  · intro hf
    cases hr : (resolve O lets extent).e with
    | none =>
      rw [(resolve_e_none_iff O lets extent).1 hr] at hf
      cases hf
    | some ev =>
      obtain ⟨⟨b, st1⟩, hb⟩ := mutate_permit_total O body lets st
      exact ⟨ev, b, st1, rfl, hb, by simp only [mutate, if_true, hr, hb]⟩

/-- Witness for C8: `example_5` is demoted, `example_1` is unrolled. -/
theorem demote_to_serial_witness :
    (∃ b st1, mutate ref_oracles true (store_to "out" (.Variable "v") (.Variable "v")) []
        (st0.warn permit_warning) = .ok (b, st1) ∧
      mutate ref_oracles true example_5 [] st0 =
        .ok (.For "v" (.IntImm 0) (.Variable "n") .Serial .None b, st1) ∧
      permit_warning ∈ st1.warnings) ∧
    (∃ ev b st1, (resolve ref_oracles [] (.IntImm 3)).e = some ev ∧
      mutate ref_oracles true (.LetStmt "k" (.Variable "C")
        (store_to "out" (.Variable "v") (.Add (.Variable "k") (.Variable "v")))) [] st0 =
          .ok (b, st1) ∧
      mutate ref_oracles true example_1 [] st0 =
        .ok (unroll_body ref_oracles "v" (.IntImm 0) (.IntImm 3) ev
          (resolve ref_oracles [] (.IntImm 3)).use_guard b
          (if ev = 1 then st1.warn (extent_one_warning "v") else st1))) :=
  ⟨(demote_to_serial ref_oracles [] st0 "v" (.IntImm 0) (.Variable "n") .None
      (store_to "out" (.Variable "v") (.Variable "v"))).1 (by decide),
    (demote_to_serial ref_oracles [] st0 "v" (.IntImm 0) (.IntImm 3) .None
      (.LetStmt "k" (.Variable "C")
        (store_to "out" (.Variable "v") (.Add (.Variable "k") (.Variable "v"))))).2
      (by decide)⟩

/-- Counterexample for C9: for `guarded_pair` the conditional of copy 0
encloses copy 0 followed by the conditional of copy 1; copy 0 is not alone in
its then-branch and the two conditionals are not in sequence. -/
theorem guarded_pair_is_nested :
    unroll_loops ref_oracles false guarded_pair st0 = .ok (guarded_pair_unrolled, ⟨[], 1⟩) ∧
    copy_at ref_oracles "v" (.IntImm 0)
      (specialised_body ref_oracles "v" (store_to "out" (.Variable "v") (.Variable "v")) st0) 0
      = guarded_pair_copy 0 ∧
    guarded_pair_unrolled ≠
      .IfThenElse (guarded_pair_test 0) (guarded_pair_copy 0) .undef ∧
    guarded_pair_unrolled ≠
      flat_guards ref_oracles "v" (.IntImm 0) (.Min (.Variable "n") (.IntImm 2))
        (specialised_body ref_oracles "v" (store_to "out" (.Variable "v") (.Variable "v")) st0)
        2 := by
  refine ⟨rfl, rfl, by decide, by decide⟩

/-- C9 as amended. Guard shape: in a guarded unroll with bound `B` in the
range of the loop counter, the statement returned is the hoisted bindings
around a nest of `B` conditionals without else-branch; conditional `i` tests
`likely_if_innermost (i < extent)` on the loop's original extent and its
then-branch is copy `i` followed by conditional `i + 1`, the last one holding
its copy alone. -/
theorem guarded_unroll_is_nest (O : Oracles) (permit : Bool) (lets : List (String × Expr))
    (st st1 : PassState) (name : String) (min extent : Expr) (d : DeviceAPI) (body b : Stmt)
    (B : Int) (hB : (resolve O lets extent).e = some B)
    (hg : (resolve O lets extent).use_guard = true) (h0 : 0 ≤ B) (h1 : B ≤ 2 ^ 31)
    (hb : mutate O permit body lets st = .ok (b, st1)) :
    ∃ st2, mutate O permit (.For name min extent .Unrolled d body) lets st =
      .ok (wrap_LetStmts (hoisted_bindings O name b st1)
        (guard_nest O name min extent (specialised_body O name b st1) 0 B.toNat), st2) := by
  have hm : mutate O permit (.For name min extent .Unrolled d body) lets st =
      .ok (unroll_body O name min extent B true b
        (if B = 1 then st1.warn (extent_one_warning name) else st1)) := by
    simp only [mutate, if_true, hB, hb, hg]
  have hs : ∀ st3 : PassState, st3.counter = st1.counter →
      (unroll_body O name min extent B true b st3).1 =
        wrap_LetStmts (hoisted_bindings O name b st1)
          (guard_nest O name min extent (specialised_body O name b st1) 0 B.toNat) := by
    intro st3 hc
    rw [unroll_body_spec, iters_loop_guarded, iteration_count_of_range B h0 h1]
    have e1 : raw_bindings O b st3 = raw_bindings O b st1 := by
      simp only [raw_bindings]
      cases strip_LetStmts b <;> simp [store_bindings, hc]
    have e2 : peeled_bindings O name b st3 = peeled_bindings O name b st1 := by
      simp only [peeled_bindings, e1]
    have e3 : specialised_body O name b st3 = specialised_body O name b st1 := by
      simp only [specialised_body, e2]
      cases strip_LetStmts b <;> simp [rebuilt_core, hc]
    simp only [hoisted_bindings, e2, e3]
  refine ⟨(unroll_body O name min extent B true b
    (if B = 1 then st1.warn (extent_one_warning name) else st1)).2, ?_⟩
  rw [hm, ← hs (if B = 1 then st1.warn (extent_one_warning name) else st1)
    (by split <;> rfl)]

/-- Witness for C9 as amended: `example_4`, bound 8. -/
theorem guarded_unroll_is_nest_witness :
    ∃ st2, mutate ref_oracles false example_4 [] st0 =
      .ok (wrap_LetStmts
        (hoisted_bindings ref_oracles "v" (store_to "out" (.Variable "v") (.Variable "v")) st0)
        (guard_nest ref_oracles "v" (.IntImm 0) (.Min (.Variable "n") (.IntImm 8))
          (specialised_body ref_oracles "v"
            (store_to "out" (.Variable "v") (.Variable "v")) st0) 0 (8 : Int).toNat), st2) :=
  guarded_unroll_is_nest ref_oracles false [] st0 st0 "v" (.IntImm 0)
    (.Min (.Variable "n") (.IntImm 8)) .None (store_to "out" (.Variable "v") (.Variable "v"))
    (store_to "out" (.Variable "v") (.Variable "v")) 8 (by decide) (by decide) (by decide)
    (by decide) rfl

/-- C10. Guard correctness fails on the code for the loop `r` over
`[0, min (n, 2))` with body `f[0] = f[0] + 1`, run with `n = 2`: the extent is
2, within the bound 2, both guards pass, yet the returned statement stores 1
twice while the body run for `r = 0, 1` stores 1 and then 2, because the store
value `f[0] + 1` is bound once outside the copies. -/
theorem accumulate_guarded_trace_differs :
    unroll_loops ref_oracles false accumulate_guarded_loop st0 =
      .ok (accumulate_guarded_unrolled, ⟨[], 1⟩) ∧
    (resolve ref_oracles [] (.Min (.Variable "n") (.IntImm 2))).e = some 2 ∧
    (resolve ref_oracles [] (.Min (.Variable "n") (.IntImm 2))).use_guard = true ∧
    eval (env0.bind "n" 2) mem0 (.Min (.Variable "n") (.IntImm 2)) = 2 ∧
    trace accumulate_guarded_unrolled (env0.bind "n" 2) mem0 =
      some [⟨"f", 0, 1⟩, ⟨"f", 0, 1⟩] ∧
    iterate_body "r" accumulate_body (env0.bind "n" 2) 0 2 mem0 =
      some [⟨"f", 0, 1⟩, ⟨"f", 0, 2⟩] := by
  refine ⟨rfl, by decide, by decide, by decide, by decide, by decide⟩
theorem iters_loop_spec (O : Oracles) (name : String) (min extent : Expr) (body : Stmt)
    (g : Bool) (k : Nat)
    (hd : g = false → 0 < k → (copy_at O name min body (k - 1)).defined = true) :
    iters_loop O name min extent body g k .undef =
      sequence_of_copies O name min extent body g k := by
  cases g with
  | true => simp only [sequence_of_copies, if_true, iters_loop_guarded]
  | false =>
    simp only [sequence_of_copies, Bool.false_eq_true, if_false]
    exact iters_loop_exact O name min extent body k (hd rfl)

theorem classify_scope_mono (O : Oracles) (vs : List String) (raw : List RawLet)
    (n : String) (h : n ∈ vs) : n ∈ classify_scope O vs raw := by
  induction raw generalizing vs with
  | nil => exact h
  | cons r rest ih =>
    simp only [classify_scope]
    apply ih
    split
    · exact List.mem_cons_of_mem _ h
    · exact h

theorem classify_varying_in_scope (O : Oracles) (vs : List String) (raw : List RawLet) :
    ∀ l ∈ classify O vs raw, l.varying = true → l.name ∈ classify_scope O vs raw := by
  induction raw generalizing vs with
  | nil => intro l hl; simp [classify] at hl
  | cons r rest ih =>
    intro l hl hv
    simp only [classify, List.mem_cons] at hl
    simp only [classify_scope]
    rcases hl with rfl | hl
    · simp only at hv
      apply classify_scope_mono
      simp only [hv, if_true]
      exact List.mem_cons_self _ _
    · exact ih _ l hl hv

theorem peeled_bindings_split (O : Oracles) (name : String) (body : Stmt) (st : PassState)
    (pre post : List RawLet) (r : RawLet) (hraw : raw_bindings O body st = pre ++ r :: post) :
    peeled_bindings O name body st =
      classify O [name] pre ++
        ⟨r.name, r.value,
          O.expr_uses_vars r.value (classify_scope O [name] pre) || O.has_side_effect r.value,
          r.from_store⟩ ::
        classify O
          (if O.expr_uses_vars r.value (classify_scope O [name] pre) || O.has_side_effect r.value
            then r.name :: classify_scope O [name] pre else classify_scope O [name] pre)
          post := by
  simp only [peeled_bindings, hraw, classify_append, classify]

theorem rebuilt_core_skip (O : Oracles) (st : PassState) (a b : List ContainingLet)
    (l : ContainingLet) (hl : l.varying = false) (s : Stmt) :
    rebuilt_core O st (a ++ l :: b) s = rebuilt_core O st (a ++ b) s := by
  cases s <;> simp [rebuilt_core, List.filter_append, List.filter_cons, hl]
/-- Counterexample for C5: in `transitive_loop` the binding `b = a` does not
reference the loop variable and has no side effect, yet it is bound in each of
the two copies and by no statement around them; in `inner_binding_loop` the
binding `k = 7` sits inside a block and is likewise bound once per copy. -/
theorem invariant_binding_not_always_hoisted :
    ref_expr_uses_vars (.Variable "a") ["v"] = false ∧
    ref_has_side_effect (.Variable "a") = false ∧
    (∃ c0 c1 st1, unroll_loops ref_oracles false transitive_loop st0 =
        .ok (.Block c0 c1, st1) ∧
      c0.binding_count "b" = 1 ∧ c1.binding_count "b" = 1) ∧
    ref_expr_uses_vars (.IntImm 7) ["v"] = false ∧
    ref_has_side_effect (.IntImm 7) = false ∧
    (∃ c0 c1 st1, unroll_loops ref_oracles false inner_binding_loop st0 =
        .ok (.Block c0 c1, st1) ∧
      c0.binding_count "k" = 1 ∧ c1.binding_count "k" = 1) := by
  refine ⟨by decide, by decide, ⟨_, _, _, rfl, by decide, by decide⟩, by decide, by decide,
    ⟨_, _, _, rfl, by decide, by decide⟩⟩

/-- C5 as amended. Invariant hoisting: a binding the peeler strips, whose value
uses no name of the varying set it has at that point (the loop variable and
the names of the earlier stripped varying bindings) and has no side effect, is
one binding statement around the whole sequence of copies, between the
invariant bindings stripped before it and those stripped after it, and the
body the copies are specialised from is built from the other bindings only. -/
theorem invariant_binding_hoisted (O : Oracles) (name : String) (min extent : Expr)
    (ev : Int) (g : Bool) (body : Stmt) (st : PassState) (pre post : List RawLet) (r : RawLet)
    (hraw : raw_bindings O body st = pre ++ r :: post)
    (huse : O.expr_uses_vars r.value (classify_scope O [name] pre) = false)
    (hse : O.has_side_effect r.value = false)
    (hd : g = false → 0 < iteration_count ev →
      (copy_at O name min (specialised_body O name body st)
        (iteration_count ev - 1)).defined = true) :
    (unroll_body O name min extent ev g body st).1 =
      wrap_LetStmts ((classify O [name] pre).filter (fun l => !l.varying))
        (.LetStmt r.name r.value
          (wrap_LetStmts
            ((classify O (classify_scope O [name] pre) post).filter (fun l => !l.varying))
            (sequence_of_copies O name min extent (specialised_body O name body st) g
              (iteration_count ev)))) ∧
    specialised_body O name body st =
      wrap_LetStmts
        ((classify O [name] pre ++ classify O (classify_scope O [name] pre) post).filter
          (fun l => !l.from_store && l.varying))
        (rebuilt_core O st
          (classify O [name] pre ++ classify O (classify_scope O [name] pre) post)
          (strip_LetStmts body)) := by
  have hp := peeled_bindings_split O name body st pre post r hraw
  simp only [huse, hse, Bool.or_false, Bool.false_eq_true, if_false] at hp
  constructor
  · rw [unroll_body_spec, iters_loop_spec _ _ _ _ _ _ _ hd, hoisted_bindings, hp,
      List.filter_append, List.filter_cons, wrap_LetStmts_append]
    rfl
  · rw [specialised_body, hp, rebuilt_core_skip O st _ _ _ rfl, List.filter_append,
      List.filter_cons, List.filter_append]
    simp

/-- Witness for C5 as amended: `example_1`, where `k = C` is bound once around
the block of three copies. -/
theorem invariant_binding_hoisted_witness :
    unroll_loops ref_oracles false example_1 st0 = .ok (example_1_unrolled, ⟨[], 1⟩) ∧
    (unroll_body ref_oracles "v" (.IntImm 0) (.IntImm 3) 3 false example_1_body st0).1 =
      example_1_unrolled ∧
    example_1_unrolled.binding_count "k" = 1 :=
  ⟨rfl,
    ((invariant_binding_hoisted ref_oracles "v" (.IntImm 0) (.IntImm 3) 3 false
      example_1_body st0
      [] [⟨"t0", .Add (.Variable "k") (.Variable "v"), true⟩] ⟨"k", .Variable "C", false⟩
      (by decide) (by decide) (by decide) (fun _ _ => by decide)).1).trans (by decide),
    by decide⟩
theorem ref_expr_uses_vars_mono (e : Expr) (vs : List String) (n : String) (hn : n ∈ vs)
    (h : ref_oracles.expr_uses_vars e [n] = true) : ref_oracles.expr_uses_vars e vs = true := by
  change ref_expr_uses_vars e [n] = true at h
  change ref_expr_uses_vars e vs = true
  induction e with
  | IntImm v => simp [ref_expr_uses_vars] at h
  | Variable m =>
    simp only [ref_expr_uses_vars, List.contains_iff_exists_mem_beq, List.mem_singleton,
      exists_eq_left, beq_iff_eq] at h ⊢
    exact ⟨n, hn, h⟩
  | Add a b iha ihb | Mul a b iha ihb | Min a b iha ihb | LT a b iha ihb =>
    simp only [ref_expr_uses_vars, Bool.or_eq_true] at h ⊢
    exact h.imp iha ihb
  | Let m v b ihv ihb =>
    simp only [ref_expr_uses_vars, Bool.or_eq_true] at h ⊢
    exact h.imp ihv ihb
  | Select c t f ihc iht ihf =>
    simp only [ref_expr_uses_vars, Bool.or_eq_true] at h ⊢
    exact h.imp (Or.imp ihc iht) ihf
  | Load m i ih =>
    simp only [ref_expr_uses_vars, Bool.or_eq_true, List.contains_iff_exists_mem_beq,
      List.mem_singleton, exists_eq_left, beq_iff_eq] at h ⊢
    exact h.imp (fun h1 => ⟨n, hn, h1⟩) ih
  | Call m a ih =>
    simp only [ref_expr_uses_vars] at h ⊢
    exact ih h
/-- C6. Varying duplication: a binding the peeler strips whose value references
the loop variable, or the name of an earlier stripped binding that is varying,
is not among the hoisted bindings; it is wrapped again inside the body the
copies are specialised from (as a binding statement, or inside the store value
when it came from the store), and every copy is that body with the loop
variable replaced by `min + i` and simplified. -/
theorem varying_binding_rewrapped (O : Oracles)
    (hmono : ∀ e vs n, n ∈ vs → O.expr_uses_vars e [n] = true → O.expr_uses_vars e vs = true)
    (name : String) (min extent : Expr) (ev : Int) (g : Bool) (body : Stmt) (st : PassState)
    (pre post : List RawLet) (r : RawLet)
    (hraw : raw_bindings O body st = pre ++ r :: post)
    (href : O.expr_uses_vars r.value [name] = true ∨
      ∃ l ∈ classify O [name] pre, l.varying = true ∧ O.expr_uses_vars r.value [l.name] = true)
    (hd : g = false → 0 < iteration_count ev →
      (copy_at O name min (specialised_body O name body st)
        (iteration_count ev - 1)).defined = true) :
    hoisted_bindings O name body st =
      (classify O [name] pre ++
        classify O (r.name :: classify_scope O [name] pre) post).filter
          (fun l => !l.varying) ∧
    (unroll_body O name min extent ev g body st).1 =
      wrap_LetStmts (hoisted_bindings O name body st)
        (sequence_of_copies O name min extent (specialised_body O name body st) g
          (iteration_count ev)) ∧
    (r.from_store = false →
      specialised_body O name body st =
        wrap_LetStmts
          ((classify O [name] pre).filter (fun l => !l.from_store && l.varying))
          (.LetStmt r.name r.value
            (wrap_LetStmts
              ((classify O (r.name :: classify_scope O [name] pre) post).filter
                (fun l => !l.from_store && l.varying))
              (rebuilt_core O st (peeled_bindings O name body st) (strip_LetStmts body))))) ∧
    (r.from_store = true →
      ∀ n v i p pr a, strip_LetStmts body = .Store n v i p pr a →
        rebuilt_core O st (peeled_bindings O name body st) (strip_LetStmts body) =
          .Store n
            (wrap_Lets ((classify O [name] pre).filter (fun l => l.from_store && l.varying))
              (.Let r.name r.value
                (wrap_Lets
                  ((classify O (r.name :: classify_scope O [name] pre) post).filter
                    (fun l => l.from_store && l.varying))
                  (.Variable (O.unique_name 't' st.counter)))))
            i p pr a) ∧
    (∀ i, copy_at O name min (specialised_body O name body st) i =
      O.simplify_stmt (O.substitute name (.Add min (.IntImm i))
        (specialised_body O name body st))) := by
  have hv : O.expr_uses_vars r.value (classify_scope O [name] pre) = true := by
    rcases href with h | ⟨l, hl, hlv, h⟩
    · exact hmono _ _ name (classify_scope_mono O [name] pre name (List.mem_singleton.2 rfl)) h
    · exact hmono _ _ l.name (classify_varying_in_scope O [name] pre l hl hlv) h
  have hp := peeled_bindings_split O name body st pre post r hraw
  simp only [hv, Bool.true_or, if_true] at hp
  refine ⟨?_, ?_, ?_, ?_, fun i => rfl⟩
  · rw [hoisted_bindings, hp, List.filter_append, List.filter_cons, List.filter_append]
    simp
  · rw [unroll_body_spec, iters_loop_spec _ _ _ _ _ _ _ hd]
  · intro hfs
    rw [specialised_body]
    generalize rebuilt_core O st (peeled_bindings O name body st) (strip_LetStmts body) = core
    rw [hp, List.filter_append, List.filter_cons, wrap_LetStmts_append]
    simp only [hfs, Bool.not_false, Bool.and_self, if_true]
    rfl
  · intro hfs n v i p pr a hs
    rw [hs, hp]
    simp only [rebuilt_core, List.filter_append, List.filter_cons, hfs, Bool.and_self, if_true,
      wrap_Lets_append]
    rfl

/-- Witness for C6: `example_2`, where `t = in[v]` is bound in each of the two
copies. -/
theorem varying_binding_rewrapped_witness :
    unroll_loops ref_oracles false example_2 st0 = .ok (example_2_unrolled, ⟨[], 1⟩) ∧
    hoisted_bindings ref_oracles "v" example_2_body st0 = [] ∧
    specialised_body ref_oracles "v" example_2_body st0 = example_2_specialised ∧
    (unroll_body ref_oracles "v" (.IntImm 0) (.IntImm 2) 2 false example_2_body st0).1 =
      example_2_unrolled :=
  have h := varying_binding_rewrapped ref_oracles ref_expr_uses_vars_mono "v" (.IntImm 0)
    (.IntImm 2) 2 false example_2_body st0 []
    [⟨"t0", .Mul (.Variable "t") (.Variable "t"), true⟩] ⟨"t", .Load "in" (.Variable "v"), false⟩
    (by decide) (Or.inl (by decide)) (fun _ _ => by decide)
  ⟨rfl, h.1.trans (by decide), (h.2.2.1 rfl).trans (by decide), h.2.1.trans (by decide)⟩
/-! ## Execution of the guarded nest -/

theorem run_copies_one (O : Oracles) (name : String) (min : Expr) (body : Stmt) (env : Env)
    (i : Nat) (mem : Mem) :
    run_copies O name min body env i 1 mem = exec (copy_at O name min body i) env mem := by
  simp only [run_copies]
  cases exec (copy_at O name min body i) env mem with
  | none => rfl
  | some r => simp

/-- When the extent evaluates to `E` in every memory, the nest of `k + 1` guards
starting at index `i` runs the copies `i, ..., i + k` that lie below `E`, in
ascending order, and nothing else. -/
theorem exec_guard_nest (O : Oracles) (name : String) (min extent : Expr) (body : Stmt)
    (env : Env) (E : Int) (hE : ∀ mem, eval env mem extent = E) (k : Nat) :
    ∀ (i : Nat) (mem : Mem),
      exec (guard_nest O name min extent body i (k + 1)) env mem =
        run_copies O name min body env i (Nat.min (k + 1) (E.toNat - i)) mem := by
  induction k with
  | zero =>
    intro i mem
    simp only [guard_nest, exec, likely_if_innermost, eval, hE, Stmt.defined]
    by_cases hlt : (i : Int) < E
    · have h1 : Nat.min (0 + 1) (E.toNat - i) = 1 := by
        have : 1 ≤ E.toNat - i := by omega
        simp only [Nat.zero_add]
        exact Nat.min_eq_left this
      rw [h1, run_copies_one]
      simp [hlt]
    · have h0 : E.toNat - i = 0 := by omega
      rw [h0]
      simp [hlt, run_copies]
  | succ k ih =>
    intro i mem
    simp only [guard_nest, exec, likely_if_innermost, eval, hE, Stmt.defined]
    by_cases hlt : (i : Int) < E
    · have h1 : Nat.min (k + 1 + 1) (E.toNat - i) =
          Nat.min (k + 1) (E.toNat - (i + 1)) + 1 := by
        have e1 : E.toNat - i = (E.toNat - (i + 1)) + 1 := by omega
        rw [e1]
        exact (Nat.succ_min_succ _ _)
      rw [h1]
      simp only [hlt, if_true, run_copies, ih, ne_eq, one_ne_zero, not_false_eq_true]
    · have h0 : E.toNat - i = 0 := by omega
      rw [h0]
      simp [hlt, run_copies]

/-! ## Claims on resolution, pass-through and the allocation cache -/

/-- C11. Trip-count resolution is first-success-wins: a literal simplified
extent is the count, unguarded, whatever the bindings and the bounds oracle;
otherwise a literal extent after inlining the enclosing bindings is the count,
unguarded; otherwise a literal bound from the oracle for the rewritten extent
is the count with the guard flag set.  The flag is set only when the first two
steps fail and the oracle answers, which for an oracle that answers with
integer literals only is the third case. -/
theorem resolve_first_success (O : Oracles) (lets : List (String × Expr)) (extent : Expr) :
    (∀ c, as_IntImm (O.simplify extent) = some c →
      resolve O lets extent = ⟨some c, O.simplify extent, false⟩) ∧
    (as_IntImm (O.simplify extent) = none →
      ∀ c, as_IntImm (inlined_extent O lets extent) = some c →
        resolve O lets extent = ⟨some c, inlined_extent O lets extent, false⟩) ∧
    (as_IntImm (O.simplify extent) = none →
      as_IntImm (inlined_extent O lets extent) = none →
      ∀ up u, O.find_constant_bound (inlined_extent O lets extent) = some up →
        as_IntImm up = some u →
        resolve O lets extent = ⟨some u, inlined_extent O lets extent, true⟩) ∧
    ((resolve O lets extent).use_guard = true →
      as_IntImm (O.simplify extent) = none ∧
      as_IntImm (inlined_extent O lets extent) = none ∧
      ∃ up, O.find_constant_bound (inlined_extent O lets extent) = some up ∧
        (resolve O lets extent).e = as_IntImm up) ∧
    ((∀ e up, O.find_constant_bound e = some up → ∃ u, up = .IntImm u) →
      (resolve O lets extent).use_guard = true →
      as_IntImm (O.simplify extent) = none ∧
      as_IntImm (inlined_extent O lets extent) = none ∧
      ∃ u, O.find_constant_bound (inlined_extent O lets extent) = some (.IntImm u) ∧
        resolve O lets extent = ⟨some u, inlined_extent O lets extent, true⟩) := by
  simp only [resolve, resolve_exact, inlined_extent, wrap_lets_eq_foldr]
  generalize O.simplify extent = x
  generalize O.simplify (O.substitute_in_all_lets (O.remove_likelies
    (lets.foldr (fun p acc => Expr.Let p.1 p.2 acc) x))) = y
  cases h1 : as_IntImm x with
  | some v => simp
  | none =>
    cases h2 : as_IntImm y with
    | some v => simp
    | none =>
      cases h3 : O.find_constant_bound y with
      | none => simp [h3]
      | some up =>
        simp only [h3, reduceCtorEq, false_implies, implies_true, true_implies,
          Option.some.injEq, true_and]
        refine ⟨?_, ⟨up, rfl, rfl⟩, ?_⟩
        · intro up2 u hup hu
          subst hup
          rw [hu]
        · intro hlit
          obtain ⟨u, rfl⟩ := hlit y up h3
          exact ⟨u, rfl, rfl⟩

theorem ref_bound_is_literal (e up : Expr) (h : ref_oracles.find_constant_bound e = some up) :
    ∃ u, up = .IntImm u := by
  change (ref_upper_bound e).map Expr.IntImm = some up at h
  cases hb : ref_upper_bound e with
  | none => rw [hb] at h; cases h
  | some u => rw [hb] at h; cases h; exact ⟨u, rfl⟩

/-- Witness for C11: a literal extent, an extent bound by an enclosing
binding, and an extent with only an upper bound. -/
theorem resolve_first_success_witness :
    resolve ref_oracles [] (.IntImm 3) = ⟨some 3, .IntImm 3, false⟩ ∧
    resolve ref_oracles [("k", .IntImm 4)] (.Variable "k") = ⟨some 4, .IntImm 4, false⟩ ∧
    resolve ref_oracles [] (.Min (.Variable "n") (.IntImm 8)) =
      ⟨some 8, .Min (.Variable "n") (.IntImm 8), true⟩ ∧
    (∃ u, ref_oracles.find_constant_bound
        (inlined_extent ref_oracles [] (.Min (.Variable "n") (.IntImm 8))) = some (.IntImm u) ∧
      resolve ref_oracles [] (.Min (.Variable "n") (.IntImm 8)) =
        ⟨some u, inlined_extent ref_oracles [] (.Min (.Variable "n") (.IntImm 8)), true⟩) :=
  ⟨(resolve_first_success ref_oracles [] (.IntImm 3)).1 3 rfl,
    (resolve_first_success ref_oracles [("k", .IntImm 4)] (.Variable "k")).2.1 rfl 4 rfl,
    (resolve_first_success ref_oracles [] (.Min (.Variable "n") (.IntImm 8))).2.2.1 rfl rfl
      (.IntImm 8) 8 rfl rfl,
    ((resolve_first_success ref_oracles [] (.Min (.Variable "n") (.IntImm 8))).2.2.2.2
      ref_bound_is_literal rfl).2.2⟩

/-- C13. Pass-through of non-unrolled loops: a loop whose kind is not
`Unrolled` comes back as a loop with the same name, min, extent, kind and
device tag around the walker's result on its body, and fails only when the
walk of its body fails. -/
theorem non_unrolled_loop_passes_through (O : Oracles) (permit : Bool)
    (lets : List (String × Expr)) (st : PassState) (name : String) (min extent : Expr)
    (t : ForType) (d : DeviceAPI) (body : Stmt) (ht : t ≠ ForType.Unrolled) :
    (∀ b st1, mutate O permit body lets st = .ok (b, st1) →
      mutate O permit (.For name min extent t d body) lets st =
        .ok (.For name min extent t d b, st1)) ∧
    (∀ err, mutate O permit body lets st = .error err →
      mutate O permit (.For name min extent t d body) lets st = .error err) := by
  constructor
  · intro b st1 hb
    simp only [mutate, ht, if_false, hb]
  · intro err hb
    simp only [mutate, ht, if_false, hb]

/-- Witness for C13: the serial loop around `example_2`. -/
theorem non_unrolled_loop_passes_through_witness :
    mutate ref_oracles true (.For "y" (.IntImm 0) (.Variable "h") .Serial .None example_2)
        [] st0 =
      .ok (.For "y" (.IntImm 0) (.Variable "h") .Serial .None example_2_unrolled, ⟨[], 1⟩) :=
  (non_unrolled_loop_passes_through ref_oracles true [] st0 "y" (.IntImm 0) (.Variable "h")
    .Serial .None example_2 (by decide)).1 example_2_unrolled ⟨[], 1⟩ rfl

theorem run_calls_append (g : AllocationCache) (a b : List CacheCall) :
    run_calls g (a ++ b) = run_calls (run_calls g a) b := by
  simp only [run_calls, List.foldl_append]

theorem flag_after_calls (calls : List CacheCall) :
    ∀ g : AllocationCache,
      (run_calls g calls).halide_reuse_device_allocations_flag =
        (last_flag calls).getD g.halide_reuse_device_allocations_flag := by
  induction calls with
  | nil => intro g; rfl
  | cons c rest ih =>
    intro g
    cases c with
    | reuse uc flag =>
      simp only [run_calls, List.foldl_cons] at ih ⊢
      rw [ih]
      simp only [last_flag, CacheCall.run, halide_reuse_device_allocations]
      cases last_flag rest <;> rfl
    | register pool =>
      simp only [run_calls, List.foldl_cons] at ih ⊢
      rw [ih]
      rfl

/-- C14. Reuse flag round trip: `halide_can_reuse_device_allocations` returns
`true` before any call of `halide_reuse_device_allocations`, and after any
sequence of calls it returns the flag passed to the most recent such call,
whatever that call returned, whatever pools are registered and whatever the
user context. -/
theorem reuse_flag_round_trip (calls : List CacheCall) (user_context : UserContext) :
    halide_can_reuse_device_allocations AllocationCache.initial user_context = true ∧
    halide_can_reuse_device_allocations (run_calls AllocationCache.initial calls) user_context =
      (last_flag calls).getD true ∧
    (∀ (uc : UserContext) (flag : Bool) (uc2 : UserContext),
      halide_can_reuse_device_allocations
        (halide_reuse_device_allocations (run_calls AllocationCache.initial calls) uc flag).2
        uc2 = flag) ∧
    (∀ (before : List CacheCall) (uc : UserContext) (flag : Bool)
        (after : List halide_device_allocation_pool),
      halide_can_reuse_device_allocations
        (run_calls AllocationCache.initial
          (before ++ CacheCall.reuse uc flag :: after.map CacheCall.register))
        user_context = flag) := by
  refine ⟨rfl, ?_, fun _ _ _ => rfl, ?_⟩
  · exact flag_after_calls calls AllocationCache.initial
  · intro before uc flag after
    simp only [halide_can_reuse_device_allocations]
    rw [run_calls_append, flag_after_calls]
    have h : ∀ l : List halide_device_allocation_pool,
        last_flag (l.map CacheCall.register) = none := by
      intro l
      induction l with
      | nil => rfl
      | cons p rest ih => simpa [last_flag] using ih
    simp [last_flag, h]

/-! ## The unrolled loop as a whole -/

theorem raw_bindings_of_counter (O : Oracles) (body : Stmt) (st st1 : PassState)
    (hc : st.counter = st1.counter) : raw_bindings O body st = raw_bindings O body st1 := by
  simp only [raw_bindings]
  cases strip_LetStmts body <;> simp [store_bindings, hc]

theorem specialised_body_of_counter (O : Oracles) (name : String) (body : Stmt)
    (st st1 : PassState) (hc : st.counter = st1.counter) :
    specialised_body O name body st = specialised_body O name body st1 := by
  simp only [specialised_body, peeled_bindings, raw_bindings_of_counter O body st st1 hc]
  cases strip_LetStmts body <;> simp [rebuilt_core, hc]

theorem hoisted_bindings_of_counter (O : Oracles) (name : String) (body : Stmt)
    (st st1 : PassState) (hc : st.counter = st1.counter) :
    hoisted_bindings O name body st = hoisted_bindings O name body st1 := by
  simp only [hoisted_bindings, peeled_bindings, raw_bindings_of_counter O body st st1 hc]

/-- The walker on an `Unrolled` loop with a resolved count: the body is walked
first, the walked body is peeled, the copies are specialised from it and the
hoisted bindings are wrapped around them; nothing is walked afterwards. -/
theorem mutate_unrolled_resolved (O : Oracles) (permit : Bool) (lets : List (String × Expr))
    (st st1 : PassState) (name : String) (min extent : Expr) (d : DeviceAPI) (body b : Stmt)
    (ev : Int) (hr : (resolve O lets extent).e = some ev)
    (hb : mutate O permit body lets st = .ok (b, st1)) :
    mutate O permit (.For name min extent .Unrolled d body) lets st =
      .ok (wrap_LetStmts (hoisted_bindings O name b st1)
          (iters_loop O name min extent (specialised_body O name b st1)
            (resolve O lets extent).use_guard (iteration_count ev) .undef),
        (unroll_body O name min extent ev (resolve O lets extent).use_guard b
          (if ev = 1 then st1.warn (extent_one_warning name) else st1)).2) := by
  have hm : mutate O permit (.For name min extent .Unrolled d body) lets st =
      .ok (unroll_body O name min extent ev (resolve O lets extent).use_guard b
        (if ev = 1 then st1.warn (extent_one_warning name) else st1)) := by
    simp only [mutate, if_true, hr, hb]
  have hc : (if ev = 1 then st1.warn (extent_one_warning name) else st1).counter =
      st1.counter := by split <;> rfl
  rw [hm, ← hoisted_bindings_of_counter O name b _ st1 hc,
    ← specialised_body_of_counter O name b _ st1 hc, ← unroll_body_spec]

theorem mutate_unrolled_error (O : Oracles) (permit : Bool) (lets : List (String × Expr))
    (st : PassState) (name : String) (min extent : Expr) (d : DeviceAPI) (body : Stmt)
    (ev : Int) (err : UnrollError) (hr : (resolve O lets extent).e = some ev)
    (hb : mutate O permit body lets st = .error err) :
    mutate O permit (.For name min extent .Unrolled d body) lets st = .error err := by
  simp only [mutate, if_true, hr, hb]

theorem unroll_body_state_warnings (O : Oracles) (name : String) (min extent : Expr)
    (ev : Int) (g : Bool) (b : Stmt) (st1 : PassState) :
    (unroll_body O name min extent ev g b
      (if ev = 1 then st1.warn (extent_one_warning name) else st1)).2.warnings =
      st1.warnings ++ (if ev = 1 then [extent_one_warning name] else []) := by
  rw [unroll_body_warnings]
  split <;> simp [PassState.warn]

/-- Counterexample for C12: a loop whose extent has only the upper bound 1 is
unrolled under a guard and still records the trivial-unroll warning; and a loop
of exact count 1 whose body holds an unresolved unrolled loop makes the pass
fail. -/
theorem trivial_warning_without_exact_count :
    (resolve ref_oracles [] (.Min (.Variable "n") (.IntImm 1))).use_guard = true ∧
    as_IntImm (ref_oracles.simplify (.Min (.Variable "n") (.IntImm 1))) = none ∧
    as_IntImm (inlined_extent ref_oracles [] (.Min (.Variable "n") (.IntImm 1))) = none ∧
    (∃ out st1, unroll_loops ref_oracles false trivial_guarded_loop st0 = .ok (out, st1) ∧
      st1.warnings = [extent_one_warning "v"]) ∧
    resolve ref_oracles [] (.IntImm 1) = ⟨some 1, .IntImm 1, false⟩ ∧
    unroll_loops ref_oracles false trivial_failing_loop st0 =
      .error ⟨"v", .Variable "n"⟩ := by
  refine ⟨rfl, rfl, rfl, ⟨_, _, rfl, by decide⟩, rfl, rfl⟩

/-- C12 as amended. Trivial unroll: when the resolved count of an `Unrolled`
loop is 1 and the walk of its body succeeds, the pass returns the hoisted
bindings around the single copy (the specialised body with the loop variable
replaced by `min + 0`, simplified; under its guard when the count is an upper
bound), with no block, and records the trivial-unroll warning naming the loop
variable after the diagnostics of the body; for any other resolved count this
loop records nothing. -/
theorem trivial_unroll (O : Oracles) (permit : Bool) (lets : List (String × Expr))
    (st st1 : PassState) (name : String) (min extent : Expr) (d : DeviceAPI) (body b : Stmt)
    (ev : Int) (hr : (resolve O lets extent).e = some ev)
    (hb : mutate O permit body lets st = .ok (b, st1)) :
    ∃ out st2, mutate O permit (.For name min extent .Unrolled d body) lets st =
        .ok (out, st2) ∧
      st2.warnings = st1.warnings ++ (if ev = 1 then [extent_one_warning name] else []) ∧
      (ev = 1 → (resolve O lets extent).use_guard = false →
        out = wrap_LetStmts (hoisted_bindings O name b st1)
          (O.simplify_stmt (O.substitute name (.Add min (.IntImm 0))
            (specialised_body O name b st1)))) ∧
      (ev = 1 → (resolve O lets extent).use_guard = true →
        out = wrap_LetStmts (hoisted_bindings O name b st1)
          (.IfThenElse (likely_if_innermost (.LT (.IntImm 0) extent))
            (O.simplify_stmt (O.substitute name (.Add min (.IntImm 0))
              (specialised_body O name b st1))) .undef)) := by
  refine ⟨_, _, mutate_unrolled_resolved O permit lets st st1 name min extent d body b ev hr hb,
    unroll_body_state_warnings O name min extent ev _ b st1, ?_, ?_⟩
  · intro h1 hg
    subst h1
    rw [hg, show iteration_count 1 = 1 from by decide]
    rfl
  · intro h1 hg
    subst h1
    rw [hg, show iteration_count 1 = 1 from by decide]
    rfl

/-- Witness for C12 as amended: a loop `v` over `[0, 1)` with body
`out[v] = v`. -/
theorem trivial_unroll_witness :
    ∃ out st2, mutate ref_oracles false
        (.For "v" (.IntImm 0) (.IntImm 1) .Unrolled .None
          (store_to "out" (.Variable "v") (.Variable "v"))) [] st0 = .ok (out, st2) ∧
      st2.warnings = st0.warnings ++ [extent_one_warning "v"] ∧
      out = store_to "out" (.IntImm 0) (.Let "t0" (.IntImm 0) (.Variable "t0")) :=
  match trivial_unroll ref_oracles false [] st0 st0 "v" (.IntImm 0) (.IntImm 1) .None
    (store_to "out" (.Variable "v") (.Variable "v"))
    (store_to "out" (.Variable "v") (.Variable "v")) 1 rfl rfl with
  | ⟨out, st2, h1, h2, h3, _⟩ => ⟨out, st2, h1, h2, (h3 rfl rfl).trans (by decide)⟩

/-- Counterexample for C15: for `nested_loops` the pass walks the body first,
so the peeler sees the binding the inner unrolling exposed and hoists it, one
binding of `t0` around both copies; peeling the unwalked body first, as the
claim orders the steps, finds nothing to hoist and leaves a binding of `t0` in
each copy. -/
theorem peel_first_differs :
    (resolve ref_oracles [] (.IntImm 2)).e = some 2 ∧
    ∃ a sa b sb,
      unroll_loops ref_oracles false nested_loops st0 = .ok (a, sa) ∧
      unroll_peel_first ref_oracles false [] "x" (.IntImm 0) (.IntImm 2) 2 false
        inner_single_loop st0 = .ok (b, sb) ∧
      a ≠ b ∧ a.binding_count "t0" = 1 ∧ b.binding_count "t0" = 2 := by
  refine ⟨rfl, _, _, _, _, rfl, rfl, by decide, by decide, by decide⟩

/-- C15 as amended. Order of recursion and peeling: for an `Unrolled` loop
with a resolved count the walker first processes the loop body, so that nested
`Unrolled` loops are resolved; the peeler then runs on the walked body; the
copies are then specialised from the peeled body and wrapped in the hoisted
bindings, and that statement is returned as it is, without a further walk.  A
failure of the walk of the body is the failure of the loop. -/
theorem walk_before_peel (O : Oracles) (permit : Bool) (lets : List (String × Expr))
    (st : PassState) (name : String) (min extent : Expr) (d : DeviceAPI) (body : Stmt)
    (ev : Int) (hr : (resolve O lets extent).e = some ev) :
    (∀ b st1, mutate O permit body lets st = .ok (b, st1) →
      ∃ st2, mutate O permit (.For name min extent .Unrolled d body) lets st =
        .ok (wrap_invariant_lets (peel_body O name b st1).2.1.reverse
          (iters_loop O name min extent (peel_body O name b st1).1
            (resolve O lets extent).use_guard (iteration_count ev) .undef), st2)) ∧
    (∀ err, mutate O permit body lets st = .error err →
      mutate O permit (.For name min extent .Unrolled d body) lets st = .error err) := by
  constructor
  · intro b st1 hb
    refine ⟨(unroll_body O name min extent ev (resolve O lets extent).use_guard b
      (if ev = 1 then st1.warn (extent_one_warning name) else st1)).2, ?_⟩
    rw [mutate_unrolled_resolved O permit lets st st1 name min extent d body b ev hr hb,
      wrap_invariant_lets_spec, peel_body_lets, peel_body_stmt, List.filter_reverse,
      List.reverse_reverse]
    rfl
  · intro err hb
    exact mutate_unrolled_error O permit lets st name min extent d body ev err hr hb

/-- Witness for C15 as amended: `nested_loops`, whose walked body is the single
copy of the inner loop under the binding of `t0`. -/
theorem walk_before_peel_witness :
    ∃ st2, mutate ref_oracles false nested_loops [] st0 =
      .ok (wrap_invariant_lets
        (peel_body ref_oracles "x"
          (.LetStmt "t0" (.IntImm 7) (store_to "out" (.IntImm 0) (.Variable "t0")))
          ⟨[extent_one_warning "y"], 1⟩).2.1.reverse
        (iters_loop ref_oracles "x" (.IntImm 0) (.IntImm 2)
          (peel_body ref_oracles "x"
            (.LetStmt "t0" (.IntImm 7) (store_to "out" (.IntImm 0) (.Variable "t0")))
            ⟨[extent_one_warning "y"], 1⟩).1
          (resolve ref_oracles [] (.IntImm 2)).use_guard (iteration_count 2) .undef), st2) :=
  (walk_before_peel ref_oracles false [] st0 "x" (.IntImm 0) (.IntImm 2) .None
    inner_single_loop 2 rfl).1 _ _ rfl

/-! ## The stack of enclosing bindings -/

theorem except_bind_assoc {ε α β γ : Type} (x : Except ε α) (f : α → Except ε β)
    (g : β → Except ε γ) : (x.bind f).bind g = x.bind (fun a => (f a).bind g) := by
  cases x <;> rfl

theorem mutate_LetStmt_bind (O : Oracles) (permit : Bool) (n : String) (v : Expr) (b : Stmt)
    (lets : List (String × Expr)) (st : PassState) :
    mutate O permit (.LetStmt n v b) lets st =
      (mutate O permit b (if O.is_pure v then lets ++ [(n, v)] else lets) st).bind
        (fun r => .ok (.LetStmt n v r.1, r.2)) := by
  simp only [mutate]
  cases mutate O permit b (if O.is_pure v then lets ++ [(n, v)] else lets) st <;> rfl

theorem mutate_Block_bind (O : Oracles) (permit : Bool) (f r : Stmt)
    (lets : List (String × Expr)) (st : PassState) :
    mutate O permit (.Block f r) lets st =
      (mutate O permit f lets st).bind (fun a =>
        (mutate O permit r lets a.2).bind (fun c => .ok (.Block a.1 c.1, c.2))) := by
  simp only [mutate]
  cases mutate O permit f lets st with
  | error e => rfl
  | ok a =>
    obtain ⟨f1, st1⟩ := a
    simp only [Except.bind]
    cases mutate O permit r lets st1 <;> rfl

theorem mutate_IfThenElse_bind (O : Oracles) (permit : Bool) (c : Expr) (t e : Stmt)
    (lets : List (String × Expr)) (st : PassState) :
    mutate O permit (.IfThenElse c t e) lets st =
      (mutate O permit t lets st).bind (fun a =>
        (mutate O permit e lets a.2).bind (fun b => .ok (.IfThenElse c a.1 b.1, b.2))) := by
  simp only [mutate]
  cases mutate O permit t lets st with
  | error e => rfl
  | ok a =>
    obtain ⟨t1, st1⟩ := a
    simp only [Except.bind]
    cases mutate O permit e lets st1 <;> rfl

/-- The walker on a loop, as one walk of the body between a step before it and
a step after it that do not depend on the body. -/
theorem mutate_For_bind (O : Oracles) (permit : Bool) (n : String) (m e : Expr) (t : ForType)
    (d : DeviceAPI) (lets : List (String × Expr)) :
    ∃ (pre : PassState → Except UnrollError PassState)
      (post : Stmt × PassState → Except UnrollError (Stmt × PassState)),
      ∀ (b : Stmt) (st : PassState),
        mutate O permit (.For n m e t d b) lets st =
          (pre st).bind (fun st1 => (mutate O permit b lets st1).bind post) := by
  by_cases ht : t = ForType.Unrolled
  · cases hr : (resolve O lets e).e with
    | none =>
      cases permit with
      | true =>
        refine ⟨fun st => .ok (st.warn permit_warning),
          fun r => .ok (.For n m e .Serial d r.1, r.2), fun b st => ?_⟩
        simp only [mutate, ht, if_true, hr, Except.bind]
        cases mutate O true b lets (st.warn permit_warning) <;> rfl
      | false =>
        refine ⟨fun _ => .error ⟨n, (resolve O lets e).extent⟩, fun r => .ok r, fun b st => ?_⟩
        simp only [mutate, ht, if_true, hr, Except.bind, Bool.false_eq_true, if_false]
    | some ev =>
      refine ⟨fun st => .ok st,
        fun r => .ok (unroll_body O n m e ev (resolve O lets e).use_guard r.1
          (if ev = 1 then r.2.warn (extent_one_warning n) else r.2)), fun b st => ?_⟩
      simp only [mutate, ht, if_true, hr, Except.bind]
      cases mutate O permit b lets st <;> rfl
  · refine ⟨fun st => .ok st, fun r => .ok (.For n m e t d r.1, r.2), fun b st => ?_⟩
    simp only [mutate, ht, if_false, Except.bind]
    cases mutate O permit b lets st <;> rfl

/-- The walk of a tree with a hole at the end of a path is one walk of the
statement in the hole, with the stack extended by the pure bindings of the
path, between a step before and a step after that do not depend on the
statement in the hole. -/
theorem mutate_plug (O : Oracles) (permit : Bool) (path : List Frame) :
    ∀ lets : List (String × Expr),
      ∃ (pre : PassState → Except UnrollError PassState)
        (post : PassState → Stmt × PassState → Except UnrollError (Stmt × PassState)),
        ∀ (s : Stmt) (st : PassState),
          mutate O permit (plug path s) lets st =
            (pre st).bind (fun st1 =>
              (mutate O permit s (lets ++ enclosing_pure_lets O path) st1).bind (post st)) := by
  induction path with
  | nil =>
    intro lets
    refine ⟨fun st => .ok st, fun _ r => .ok r, fun s st => ?_⟩
    simp only [plug, enclosing_pure_lets, List.append_nil, Except.bind]
    cases mutate O permit s lets st <;> rfl
  | cons f rest ih =>
    intro lets
    cases f with
    | let_body n v =>
      obtain ⟨pre, post, h⟩ := ih (if O.is_pure v then lets ++ [(n, v)] else lets)
      refine ⟨pre, fun st r => (post st r).bind (fun r => .ok (.LetStmt n v r.1, r.2)),
        fun s st => ?_⟩
      have hl : (if O.is_pure v then lets ++ [(n, v)] else lets) ++ enclosing_pure_lets O rest =
          lets ++ enclosing_pure_lets O (.let_body n v :: rest) := by
        simp only [enclosing_pure_lets]
        split <;> simp
      simp only [plug, Frame.fill, mutate_LetStmt_bind, h, hl, except_bind_assoc]
    | for_body n m e t d =>
      obtain ⟨pre, post, h⟩ := ih lets
      obtain ⟨pre1, post1, h1⟩ := mutate_For_bind O permit n m e t d lets
      refine ⟨fun st => (pre1 st).bind pre,
        fun st r => (pre1 st).bind (fun st1 => (post st1 r).bind post1), fun s st => ?_⟩
      simp only [plug, Frame.fill, h1, h, enclosing_pure_lets, except_bind_assoc]
      cases pre1 st <;> rfl
    | block_first r =>
      obtain ⟨pre, post, h⟩ := ih lets
      refine ⟨pre, fun st x => (post st x).bind (fun a =>
        (mutate O permit r lets a.2).bind (fun c => .ok (.Block a.1 c.1, c.2))),
        fun s st => ?_⟩
      simp only [plug, Frame.fill, mutate_Block_bind, h, enclosing_pure_lets,
        except_bind_assoc]
    | block_rest fst =>
      obtain ⟨pre, post, h⟩ := ih lets
      refine ⟨fun st => (mutate O permit fst lets st).bind (fun a => pre a.2),
        fun st x => (mutate O permit fst lets st).bind (fun a =>
          (post a.2 x).bind (fun c => .ok (.Block a.1 c.1, c.2))), fun s st => ?_⟩
      simp only [plug, Frame.fill, mutate_Block_bind, h, enclosing_pure_lets,
        except_bind_assoc]
      cases mutate O permit fst lets st <;> rfl
    | then_case c e =>
      obtain ⟨pre, post, h⟩ := ih lets
      refine ⟨pre, fun st x => (post st x).bind (fun a =>
        (mutate O permit e lets a.2).bind (fun b => .ok (.IfThenElse c a.1 b.1, b.2))),
        fun s st => ?_⟩
      simp only [plug, Frame.fill, mutate_IfThenElse_bind, h, enclosing_pure_lets,
        except_bind_assoc]
    | else_case c t =>
      obtain ⟨pre, post, h⟩ := ih lets
      refine ⟨fun st => (mutate O permit t lets st).bind (fun a => pre a.2),
        fun st x => (mutate O permit t lets st).bind (fun a =>
          (post a.2 x).bind (fun b => .ok (.IfThenElse c a.1 b.1, b.2))), fun s st => ?_⟩
      simp only [plug, Frame.fill, mutate_IfThenElse_bind, h, enclosing_pure_lets,
        except_bind_assoc]
      cases mutate O permit t lets st <;> rfl

/-- C16. Enclosing bindings: the walk of a tree reaches the statement at the end
of a path with a stack holding exactly the pure bindings of the path, outermost
first (the walk of the whole tree is one walk of that statement with this stack
between two steps that do not depend on it); step 2 wraps the extent in nested
lets, the first binding of the stack outermost and the last one pushed closest
to the extent, and the extent it leaves is the one resolution goes on with. -/
theorem enclosing_bindings_at_loop (O : Oracles) (permit : Bool) (path : List Frame) :
    (∃ (pre : PassState → Except UnrollError PassState)
        (post : PassState → Stmt × PassState → Except UnrollError (Stmt × PassState)),
        (∀ (s : Stmt) (st : PassState),
          unroll_loops O permit (plug path s) st =
            (pre st).bind (fun st1 =>
              (mutate O permit s (enclosing_pure_lets O path) st1).bind (post st))) ∧
        (permit = false → ∀ (st st1 : PassState), pre st = .ok st1 →
          ∀ (n : String) (m e : Expr) (d : DeviceAPI) (b : Stmt),
            all_steps_fail O (enclosing_pure_lets O path) e = true →
            unroll_loops O permit (plug path (.For n m e .Unrolled d b)) st =
              .error ⟨n, inlined_extent O (enclosing_pure_lets O path) e⟩)) ∧
    (∀ (n : String) (v : Expr) (rest : List Frame),
      enclosing_pure_lets O (.let_body n v :: rest) =
        if O.is_pure v then (n, v) :: enclosing_pure_lets O rest
        else enclosing_pure_lets O rest) ∧
    (∀ (p : String × Expr) (rest : List (String × Expr)) (extent : Expr),
      wrap_lets (p :: rest) extent = .Let p.1 p.2 (wrap_lets rest extent)) ∧
    (∀ (lets : List (String × Expr)) (p : String × Expr) (extent : Expr),
      wrap_lets (lets ++ [p]) extent = wrap_lets lets (.Let p.1 p.2 extent)) ∧
    (∀ (lets : List (String × Expr)) (extent : Expr),
      as_IntImm (O.simplify extent) = none →
      (resolve O lets extent).extent =
        O.simplify (O.substitute_in_all_lets (O.remove_likelies
          (wrap_lets lets (O.simplify extent))))) := by
  refine ⟨?_, ?_, ?_, ?_, ?_⟩
  · obtain ⟨pre, post, h⟩ := mutate_plug O permit path []
    have h2 : ∀ (s : Stmt) (st : PassState),
        unroll_loops O permit (plug path s) st =
          (pre st).bind (fun st1 =>
            (mutate O permit s (enclosing_pure_lets O path) st1).bind (post st)) :=
      fun s st => by simpa only [unroll_loops, List.nil_append] using h s st
    refine ⟨pre, post, h2, ?_⟩
    intro hp st st1 hpre n m e d b hf
    have hr : (resolve O (enclosing_pure_lets O path) e).e = none :=
      (resolve_e_none_iff O _ e).2 hf
    rw [h2, hpre]
    subst hp
    simp only [Except.bind, mutate, if_true, hr, Bool.false_eq_true, if_false,
      resolve_extent_of_none O _ e hr]
  · intro n v rest
    simp only [enclosing_pure_lets]
    split <;> simp
  · intro p rest extent
    simp only [wrap_lets_eq_foldr, List.foldr_cons]
  · intro lets p extent
    simp only [wrap_lets_eq_foldr, List.foldr_append, List.foldr_cons, List.foldr_nil]
  · intro lets extent h1
    simp only [resolve, resolve_exact, h1]
    cases as_IntImm (O.simplify (O.substitute_in_all_lets (O.remove_likelies
      (wrap_lets lets (O.simplify extent))))) with
    | some v => rfl
    | none =>
      simp only []
      cases O.find_constant_bound (O.simplify (O.substitute_in_all_lets (O.remove_likelies
        (wrap_lets lets (O.simplify extent))))) <;> rfl

/-- On `example_path` the stack holds `n = 4` and `m = n + 1`, outermost first:
the impure binding `a` and the binding `z` beside the path are absent, and a
loop over `m` at the end of the path resolves to the exact count 5. -/
theorem example_path_stack :
    enclosing_pure_lets ref_oracles example_path =
      [("n", .IntImm 4), ("m", .Add (.Variable "n") (.IntImm 1))] ∧
    wrap_lets (enclosing_pure_lets ref_oracles example_path) (.Variable "m") =
      .Let "n" (.IntImm 4) (.Let "m" (.Add (.Variable "n") (.IntImm 1)) (.Variable "m")) ∧
    resolve ref_oracles (enclosing_pure_lets ref_oracles example_path) (.Variable "m") =
      ⟨some 5, .IntImm 5, false⟩ ∧
    (resolve ref_oracles
      [("m", .Add (.Variable "n") (.IntImm 1)), ("n", .IntImm 4)] (.Variable "m")).e = none ∧
    (∃ out st1, unroll_loops ref_oracles false (plug example_path loop_over_m) st0 =
      .ok (out, st1)) := by
  refine ⟨by decide, by decide, by decide, by decide, ⟨_, _, rfl⟩⟩

/-! ## Output of the peeler -/

theorem classify_raw (O : Oracles) (vs : List String) (raw : List RawLet) :
    (classify O vs raw).map (fun l => (⟨l.name, l.value, l.from_store⟩ : RawLet)) = raw := by
  induction raw generalizing vs with
  | nil => rfl
  | cons r rest ih => simp only [classify, List.map_cons, ih]

theorem three_way_perm (ls : List ContainingLet) :
    (ls.filter (fun l => !l.varying) ++
      (ls.filter (fun l => !l.from_store && l.varying) ++
        ls.filter (fun l => l.from_store && l.varying))).Perm ls := by
  induction ls with
  | nil => exact List.Perm.refl _
  | cons l rest ih =>
    cases hv : l.varying <;> cases hf : l.from_store <;>
      simp only [List.filter_cons, hv, hf, Bool.not_false, Bool.not_true, Bool.and_self,
        Bool.and_false, Bool.and_true, Bool.false_and, Bool.true_and, if_true, if_false,
        Bool.false_eq_true, List.cons_append]
    · exact List.Perm.cons _ ih
    · exact List.Perm.cons _ ih
    · exact (List.perm_middle).trans (List.Perm.cons _ ih)
    · refine List.Perm.trans ?_ (List.Perm.cons _ ih)
      have h := @List.perm_middle _ l
        (rest.filter (fun l => !l.varying) ++
          rest.filter (fun l => !l.from_store && l.varying))
        (rest.filter (fun l => l.from_store && l.varying))
      rw [List.append_assoc, List.append_assoc] at h
      exact h

theorem rebuilt_core_store (O : Oracles) (st : PassState) (peeled : List ContainingLet)
    (n : String) (v i : Expr) (p : String) (pr : Expr) (a : Int × Int) :
    rebuilt_core O st peeled (.Store n v i p pr a) =
      .Store n (wrap_Lets (peeled.filter (fun l => l.from_store && l.varying))
        (.Variable (O.unique_name 't' st.counter))) i p pr a := rfl

theorem rebuilt_core_other (O : Oracles) (st : PassState) (peeled : List ContainingLet)
    (s : Stmt) (hs : ∀ n v i p pr a, s ≠ .Store n v i p pr a) :
    rebuilt_core O st peeled s = s := by
  cases s with
  | Store n v i p pr a => exact absurd rfl (hs n v i p pr a)
  | _ => rfl

theorem store_bindings_other (O : Oracles) (st : PassState) (s : Stmt)
    (hs : ∀ n v i p pr a, s ≠ .Store n v i p pr a) : store_bindings O st s = [] := by
  cases s with
  | Store n v i p pr a => exact absurd rfl (hs n v i p pr a)
  | _ => rfl

theorem peel_body_state (O : Oracles) (name : String) (body : Stmt) (st : PassState) :
    (∀ n v i p pr a, strip_LetStmts body = .Store n v i p pr a →
      (peel_body O name body st).2.2 = { st with counter := st.counter + 1 }) ∧
    ((∀ n v i p pr a, strip_LetStmts body ≠ .Store n v i p pr a) →
      (peel_body O name body st).2.2 = st) := by
  simp only [peel_body, peel_LetStmts_spec]
  constructor
  · intro n v i p pr a hs
    rw [hs]
    rfl
  · intro hs
    generalize strip_LetStmts body = core at hs
    cases core with
    | Store n v i p pr a => exact absurd rfl (hs n v i p pr a)
    | _ => rfl

/-- C17. Peeler output order: the peeled vector lists the bindings of the body
in the order they are met; each of them is in exactly one of three places, the
hoisted bindings (invariant), the binding statements re-wrapped around the
body (varying, from in front of the body) or the bindings re-wrapped around
the store value (varying, from the store); each place keeps the original
relative order, and the hoisted bindings are wrapped around the sequence of
copies with the first-peeled one outermost. -/
theorem peeler_output_order (O : Oracles) (name : String) (min extent : Expr) (ev : Int)
    (g : Bool) (body : Stmt) (st : PassState) :
    (peel_body O name body st).2.1.map (fun l => (⟨l.name, l.value, l.from_store⟩ : RawLet)) =
      raw_bindings O body st ∧
    ((peel_body O name body st).2.1.filter (fun l => !l.varying) ++
      ((peel_body O name body st).2.1.filter (fun l => !l.from_store && l.varying) ++
        (peel_body O name body st).2.1.filter (fun l => l.from_store && l.varying))).Perm
      (peel_body O name body st).2.1 ∧
    ((peel_body O name body st).2.1.filter (fun l => !l.varying)).Sublist
      (peel_body O name body st).2.1 ∧
    ((peel_body O name body st).2.1.filter (fun l => !l.from_store && l.varying)).Sublist
      (peel_body O name body st).2.1 ∧
    ((peel_body O name body st).2.1.filter (fun l => l.from_store && l.varying)).Sublist
      (peel_body O name body st).2.1 ∧
    (peel_body O name body st).1 =
      wrap_LetStmts
        ((peel_body O name body st).2.1.filter (fun l => !l.from_store && l.varying))
        (rebuilt_core O st (peel_body O name body st).2.1 (strip_LetStmts body)) ∧
    (∀ n v i p pr a, strip_LetStmts body = .Store n v i p pr a →
      rebuilt_core O st (peel_body O name body st).2.1 (strip_LetStmts body) =
        .Store n
          (wrap_Lets ((peel_body O name body st).2.1.filter (fun l => l.from_store && l.varying))
            (.Variable (O.unique_name 't' st.counter))) i p pr a) ∧
    ((∀ n v i p pr a, strip_LetStmts body ≠ .Store n v i p pr a) →
      rebuilt_core O st (peel_body O name body st).2.1 (strip_LetStmts body) =
        strip_LetStmts body ∧
      (peel_body O name body st).2.1.filter (fun l => l.from_store && l.varying) = []) ∧
    (unroll_body O name min extent ev g body st).1 =
      wrap_LetStmts ((peel_body O name body st).2.1.filter (fun l => !l.varying))
        (iters_loop O name min extent (peel_body O name body st).1 g
          (iteration_count ev) .undef) := by
  refine ⟨?_, three_way_perm _, List.filter_sublist _, List.filter_sublist _,
    List.filter_sublist _, ?_, ?_, ?_, ?_⟩
  · rw [peel_body_lets, peeled_bindings, classify_raw]
  · rw [peel_body_stmt, peel_body_lets, specialised_body]
  · intro n v i p pr a hs
    rw [hs]
    rfl
  · intro hs
    refine ⟨rebuilt_core_other O st _ _ hs, ?_⟩
    rw [peel_body_lets, peeled_bindings, raw_bindings, store_bindings_other O st _ hs,
      List.append_nil]
    exact filter_eq_nil_of_outer _ (classify_body_bindings_outer O [name] body)
  · rw [unroll_body_spec, peel_body_stmt, peel_body_lets, hoisted_bindings]

/-- C18. Store reconstruction: when the statement left after the leading binding
statements is a store, the rebuilt store keeps its name, index, parameter,
predicate and alignment, and its value is the chain of the varying bindings
among those taken from the store (the chain in front of the value, then the
fresh name bound to the trailing value), in order, around a bare reference to
the fresh name; one fresh name is generated.  When it is not a store it is
kept as it is, no binding is taken from it and no fresh name is generated. -/
theorem store_reconstruction (O : Oracles) (name : String) (body : Stmt) (st : PassState) :
    (∀ n v i p pr a, strip_LetStmts body = .Store n v i p pr a →
      (peel_body O name body st).1 =
        wrap_LetStmts
          ((peel_body O name body st).2.1.filter (fun l => !l.from_store && l.varying))
          (.Store n
            (wrap_Lets
              ((classify O (classify_scope O [name] (body_bindings body))
                ((leading_Lets v).map (fun q => (⟨q.1, q.2, true⟩ : RawLet)) ++
                  [⟨O.unique_name 't' st.counter, strip_Lets v, true⟩])).filter
                (fun l => l.varying))
              (.Variable (O.unique_name 't' st.counter))) i p pr a) ∧
      (peel_body O name body st).2.1 =
        classify O [name] (body_bindings body) ++
          classify O (classify_scope O [name] (body_bindings body))
            ((leading_Lets v).map (fun q => (⟨q.1, q.2, true⟩ : RawLet)) ++
              [⟨O.unique_name 't' st.counter, strip_Lets v, true⟩]) ∧
      (peel_body O name body st).2.2 = { st with counter := st.counter + 1 }) ∧
    ((∀ n v i p pr a, strip_LetStmts body ≠ .Store n v i p pr a) →
      (peel_body O name body st).1 =
        wrap_LetStmts
          ((peel_body O name body st).2.1.filter (fun l => !l.from_store && l.varying))
          (strip_LetStmts body) ∧
      (peel_body O name body st).2.1 = classify O [name] (body_bindings body) ∧
      (peel_body O name body st).2.2 = st) := by
  constructor
  · intro n v i p pr a hs
    have hl : (peel_body O name body st).2.1 =
        classify O [name] (body_bindings body) ++
          classify O (classify_scope O [name] (body_bindings body))
            ((leading_Lets v).map (fun q => (⟨q.1, q.2, true⟩ : RawLet)) ++
              [⟨O.unique_name 't' st.counter, strip_Lets v, true⟩]) := by
      rw [peel_body_lets, peeled_bindings, raw_bindings, classify_append, hs]
      rfl
    refine ⟨?_, hl, (peel_body_state O name body st).1 n v i p pr a hs⟩
    have hin : ∀ l ∈ classify O (classify_scope O [name] (body_bindings body))
        ((leading_Lets v).map (fun q => (⟨q.1, q.2, true⟩ : RawLet)) ++
          [⟨O.unique_name 't' st.counter, strip_Lets v, true⟩]), l.from_store = true :=
      classify_store_bindings_inner O _ st (.Store n v i p pr a)
    rw [peel_body_stmt, specialised_body, ← peel_body_lets, hs, rebuilt_core_store]
    congr 2
    rw [hl, List.filter_append,
      filter_eq_nil_of_outer _ (classify_body_bindings_outer O [name] body),
      filter_inner_eq _ hin, List.nil_append]
  · intro hs
    refine ⟨?_, ?_, (peel_body_state O name body st).2 hs⟩
    · rw [peel_body_stmt, specialised_body, ← peel_body_lets, rebuilt_core_other O st _ _ hs]
    · rw [peel_body_lets, peeled_bindings, raw_bindings, store_bindings_other O st _ hs,
        List.append_nil]

/-- Witness for C18: the body of `example_2`, which ends in a store, and the
body of `inner_binding_loop`, a block. -/
theorem store_reconstruction_witness :
    (peel_body ref_oracles "v" example_2_body st0).1 = example_2_specialised ∧
    (peel_body ref_oracles "v" example_2_body st0).2.2 = ⟨[], 1⟩ ∧
    (peel_body ref_oracles "v"
      (.Block (.LetStmt "k" (.IntImm 7) (store_to "out" (.Variable "v") (.Variable "k")))
        (.Evaluate (.IntImm 0))) st0).2.2 = st0 :=
  ⟨((store_reconstruction ref_oracles "v" example_2_body st0).1 "out"
      (.Mul (.Variable "t") (.Variable "t")) (.Variable "v") "" (.IntImm 1) (1, 0) rfl).1.trans
      (by decide),
    ((store_reconstruction ref_oracles "v" example_2_body st0).1 "out"
      (.Mul (.Variable "t") (.Variable "t")) (.Variable "v") "" (.IntImm 1) (1, 0) rfl).2.2,
    ((store_reconstruction ref_oracles "v"
      (.Block (.LetStmt "k" (.IntImm 7) (store_to "out" (.Variable "v") (.Variable "k")))
        (.Evaluate (.IntImm 0))) st0).2
      (fun _ _ _ _ _ _ h => by cases h)).2.2⟩

/-! ## Classification -/

theorem classify_scope_mem (O : Oracles) (raw : List RawLet) :
    ∀ (vs : List String) (n : String),
      n ∈ classify_scope O vs raw ↔
        n ∈ vs ∨ ∃ l ∈ classify O vs raw, l.varying = true ∧ l.name = n := by
  induction raw with
  | nil => intro vs n; simp [classify_scope, classify]
  | cons r rest ih =>
    intro vs n
    simp only [classify_scope, classify, ih, List.mem_cons, exists_eq_or_imp]
    cases hv : (O.expr_uses_vars r.value vs || O.has_side_effect r.value)
    · simp
    · simp only [if_true, List.mem_cons, true_and]
      constructor
      · rintro ((rfl | h) | h)
        · exact Or.inr (Or.inl rfl)
        · exact Or.inl h
        · exact Or.inr (Or.inr h)
      · rintro (h | rfl | h)
        · exact Or.inl (Or.inr h)
        · exact Or.inl (Or.inl rfl)
        · exact Or.inr h

theorem substitute_of_not_free (name : String) (x : Expr) (e : Expr)
    (h : free_in name e = false) : ref_substitute_expr name x e = e := by
  induction e with
  | IntImm v => rfl
  | Variable n =>
    simp only [free_in, decide_eq_false_iff_not] at h
    simp only [ref_substitute_expr, h, if_false]
  | Add a b iha ihb | Mul a b iha ihb | Min a b iha ihb | LT a b iha ihb =>
    simp only [free_in, Bool.or_eq_false_iff] at h
    simp only [ref_substitute_expr, iha h.1, ihb h.2]
  | Let n v b ihv ihb =>
    simp only [free_in, Bool.or_eq_false_iff, Bool.and_eq_false_imp, Bool.not_eq_true',
      decide_eq_false_iff_not] at h
    simp only [ref_substitute_expr, ihv h.1]
    by_cases hn : n = name
    · simp only [hn, if_true]
    · simp only [hn, if_false, ihb (h.2 hn)]
  | Select c t f ihc iht ihf =>
    simp only [free_in, Bool.or_eq_false_iff] at h
    simp only [ref_substitute_expr, ihc h.1.1, iht h.1.2, ihf h.2]
  | Load n i ih =>
    simp only [free_in] at h
    simp only [ref_substitute_expr, ih h]
  | Call n a ih =>
    simp only [free_in] at h
    simp only [ref_substitute_expr, ih h]

theorem ref_expr_uses_vars_sound (e : Expr) (vs : List String)
    (h : ref_oracles.expr_uses_vars e vs = false) : ∀ n ∈ vs, free_in n e = false := by
  change ref_expr_uses_vars e vs = false at h
  intro n hn
  induction e with
  | IntImm v => rfl
  | Variable m =>
    simp only [ref_expr_uses_vars] at h
    simp only [free_in, decide_eq_false_iff_not]
    rintro rfl
    have : vs.contains m = true := List.contains_iff_exists_mem_beq.2 ⟨m, hn, by simp⟩
    rw [h] at this
    cases this
  | Add a b iha ihb | Mul a b iha ihb | Min a b iha ihb | LT a b iha ihb =>
    simp only [ref_expr_uses_vars, Bool.or_eq_false_iff] at h
    simp only [free_in, iha h.1, ihb h.2, Bool.or_self]
  | Let m v b ihv ihb =>
    simp only [ref_expr_uses_vars, Bool.or_eq_false_iff] at h
    simp only [free_in, ihv h.1, ihb h.2, Bool.and_false, Bool.or_self]
  | Select c t f ihc iht ihf =>
    simp only [ref_expr_uses_vars, Bool.or_eq_false_iff] at h
    simp only [free_in, ihc h.1.1, iht h.1.2, ihf h.2, Bool.or_self]
  | Load m i ih =>
    simp only [ref_expr_uses_vars, Bool.or_eq_false_iff] at h
    simp only [free_in, ih h.2]
  | Call m a ih =>
    simp only [ref_expr_uses_vars] at h
    simp only [free_in, ih h]

/-- C19. Soundness of classification: a peeled binding is varying exactly when
its value uses a name of the varying set it meets (the loop variable and the
names of the earlier peeled varying bindings) or has a side effect; hence, for
a free-variable oracle that reports every free occurrence, the value of a
binding classified invariant has no side effect and no free occurrence of the
loop variable or of an earlier varying name, and substituting the loop
variable leaves it unchanged. -/
theorem classification_sound (O : Oracles) (name : String) (body : Stmt) (st : PassState)
    (pre post : List RawLet) (r : RawLet)
    (hraw : raw_bindings O body st = pre ++ r :: post) :
    (∃ l, (peel_body O name body st).2.1 =
          classify O [name] pre ++ l ::
            classify O (classify_scope O [name] (pre ++ [r])) post ∧
        l.name = r.name ∧ l.value = r.value ∧ l.from_store = r.from_store ∧
        (l.varying = true ↔
          (O.expr_uses_vars r.value (classify_scope O [name] pre) = true ∨
            O.has_side_effect r.value = true))) ∧
    (∀ n, n ∈ classify_scope O [name] pre ↔
      (n = name ∨ ∃ l ∈ classify O [name] pre, l.varying = true ∧ l.name = n)) ∧
    ((∀ e vs, O.expr_uses_vars e vs = false → ∀ n ∈ vs, free_in n e = false) →
      O.expr_uses_vars r.value (classify_scope O [name] pre) = false →
      O.has_side_effect r.value = false →
      free_in name r.value = false ∧
      (∀ l ∈ classify O [name] pre, l.varying = true → free_in l.name r.value = false) ∧
      ∀ x, ref_substitute_expr name x r.value = r.value) := by
  have hmem : ∀ n, n ∈ classify_scope O [name] pre ↔
      (n = name ∨ ∃ l ∈ classify O [name] pre, l.varying = true ∧ l.name = n) := by
    intro n
    rw [classify_scope_mem, List.mem_singleton]
  refine ⟨?_, hmem, ?_⟩
  · refine ⟨⟨r.name, r.value,
      O.expr_uses_vars r.value (classify_scope O [name] pre) || O.has_side_effect r.value,
      r.from_store⟩, ?_, rfl, rfl, rfl, ?_⟩
    · rw [peel_body_lets, peeled_bindings_split O name body st pre post r hraw,
        classify_scope_append]
      rfl
    · simp only [Bool.or_eq_true]
  · intro hsound huse _
    have h1 : free_in name r.value = false :=
      hsound _ _ huse name ((hmem name).2 (Or.inl rfl))
    refine ⟨h1, ?_, fun x => substitute_of_not_free name x r.value h1⟩
    intro l hl hv
    exact hsound _ _ huse l.name ((hmem l.name).2 (Or.inr ⟨l, hl, hv, rfl⟩))

/-- Witness for C19: in `example_1` the binding `k = C` is invariant, its value
has no free `v`, and substituting `v` leaves it unchanged. -/
theorem classification_sound_witness :
    free_in "v" (.Variable "C") = false ∧
    ∀ x, ref_substitute_expr "v" x (.Variable "C") = .Variable "C" :=
  have h := (classification_sound ref_oracles "v" example_1_body st0 []
    [⟨"t0", .Add (.Variable "k") (.Variable "v"), true⟩] ⟨"k", .Variable "C", false⟩
    (by decide)).2.2 ref_expr_uses_vars_sound (by decide) (by decide)
  ⟨h.1, h.2.2⟩

/-! ## Definedness of the sequence of copies -/

theorem well_formed_wrap_LetStmts (ls : List ContainingLet) (s : Stmt) :
    well_formed (wrap_LetStmts ls s) = well_formed s := by
  induction ls with
  | nil => rfl
  | cons l rest ih => simpa only [wrap_LetStmts, List.foldr_cons, well_formed] using ih

theorem iters_loop_guarded_defined (O : Oracles) (name : String) (min extent : Expr)
    (body : Stmt) (k : Nat) (hk : 0 < k) :
    (iters_loop O name min extent body true k .undef).defined = true := by
  rw [iters_loop_guarded]
  obtain ⟨j, rfl⟩ := Nat.exists_eq_succ_of_ne_zero (Nat.pos_iff_ne_zero.1 hk)
  exact guard_nest_defined O name min extent body 0 j

theorem iters_loop_exact_defined (O : Oracles) (name : String) (min extent : Expr)
    (body : Stmt) (k : Nat) (hk : 0 < k)
    (hd : (copy_at O name min body (k - 1)).defined = true) :
    (iters_loop O name min extent body false k .undef).defined = true := by
  obtain ⟨j, rfl⟩ := Nat.exists_eq_succ_of_ne_zero (Nat.pos_iff_ne_zero.1 hk)
  rw [iters_loop_exact O name min extent body (j + 1) (fun _ => hd), List.range_eq_range']
  exact block_chain_range_defined O name min body 0 j (by simpa using hd)

/-- For a count in the range of the loop counter: the sequence of copies of a
guarded unroll is defined exactly when the count is at least 1; with a count of
at most 0 no copy is made, the hoisted bindings are wrapped around the
undefined statement and the statement returned is not well formed. -/
theorem unroll_body_nonpositive (O : Oracles) (name : String) (min extent : Expr) (ev : Int)
    (g : Bool) (body : Stmt) (st : PassState) (h0 : ev ≤ 0) (h1 : -(2 ^ 31) < ev) :
    iters_loop O name min extent (specialised_body O name body st) g (iteration_count ev)
      .undef = .undef ∧
    (unroll_body O name min extent ev g body st).1 =
      wrap_LetStmts (hoisted_bindings O name body st) .undef ∧
    well_formed (unroll_body O name min extent ev g body st).1 = false := by
  have hz := iteration_count_of_nonpos ev h0 h1
  refine ⟨by rw [hz]; rfl, ?_, ?_⟩
  · rw [unroll_body_spec, hz]
    rfl
  · rw [unroll_body_spec, hz, well_formed_wrap_LetStmts]
    rfl

/-- C20. Definedness of the sequence of copies fails on the code as an
equivalence with `N >= 1`: for the count `2 ^ 32` the 32-bit counter starts
below zero and no copy is made, whatever the collaborators and the guard flag;
for the count `-2 ^ 31` the counter wraps to a positive value; and a loop of
count 1 around a loop of count 0 has an undefined copy.  For the count 0 the
code does what the claim reports: the hoisted bindings are wrapped around the
undefined statement and the result is not well formed. -/
theorem undefined_sequence_cases :
    ((1 : Int) ≤ 4294967296 ∧
      ∀ (O : Oracles) (name : String) (min extent : Expr) (body : Stmt) (g : Bool),
        iters_loop O name min extent body g (iteration_count 4294967296) .undef = .undef) ∧
    iteration_count (-2147483648) = 2147483648 ∧
    (resolve ref_oracles [] (.IntImm 1)).e = some 1 ∧
    unroll_loops ref_oracles false loop_around_empty st0 =
      .ok (.undef, ⟨[extent_one_warning "w"], 1⟩) ∧
    unroll_loops ref_oracles false empty_loop st0 =
      .ok (.LetStmt "k" (.Variable "C") (.LetStmt "t0" (.Variable "k") .undef), ⟨[], 1⟩) ∧
    well_formed (.LetStmt "k" (.Variable "C") (.LetStmt "t0" (.Variable "k") .undef)) =
      false := by
  refine ⟨⟨by decide, ?_⟩, by decide, rfl, rfl, rfl, rfl⟩
  intro O name min extent body g
  rw [show iteration_count 4294967296 = 0 from by decide]
  rfl

end Halide
